import Mathlib

/-!
# Word Maze Escape: the game logic of `src/game.js`

A shallow embedding of the `Game` class: the maze generator
(`generateMaze`, `getUnvisitedNeighbors`), the move / answer state machine
(`startGame`, `movePlayer`, `checkAnswer`, `triggerTrap`, `gameWon`,
`gameOver`), the redraw (`update`), the resize handler (`resizeCanvas`) and
the countdown (`updateTimer`).

Modelling conventions.

* JavaScript numbers that hold grid coordinates, scores and seconds are
  integers in every run of the program; they are `Int` here, the grid
  dimensions `rows` and `cols` are `Nat`.
* `Math.floor(Math.random() * n)` is an arbitrary index below `n`.  Every
  call takes its draw from a stream `rnd : Nat → Nat` and uses
  `randIndex (rnd 0) n`; the stream handed on is shifted by the number of
  draws consumed.
* `Date.now()` readings, the entry picked from the external `wordList`, the
  text of the input field, the handle returned by `setInterval` and the
  JavaScript string normalisation `toLowerCase().trim()` are arguments.
* Canvas drawing, DOM text updates, toasts and alerts do not touch the
  session state and are left out; the maze reads of the drawing code are
  kept, because they can throw.  The visibility of the word prompt is kept
  as `promptShown`.
* An event handler that throws ends there, and the session goes on from
  the state the handler had reached: a handler returns
  `Except (Fault × Game) Game`, the error carrying that state.
* A JavaScript `TypeError` (reading a property of `undefined`) is
  `Fault.typeError`.  A loop that has not finished within the given fuel is
  `Fault.outOfFuel`.  A write outside a row (where JavaScript would grow
  the array or add a property) is outside the model and reported as
  `Fault.unmodelled`; no such write happens on a grid with at least one row
  and one column.
-/

namespace WordMaze

/-- Ways an operation of the model can fail to produce a state. -/
inductive Fault where
  | typeError
  | outOfFuel
  | unmodelled
  deriving DecidableEq

/-- A grid position `{ x, y }`. -/
structure Cell where
  x : Int
  y : Int
  deriving DecidableEq

/-- The grid `this.maze`: a list of rows, `1` is a wall and `0` is open. -/
abbrev Maze := List (List Nat)

/-- An entry of the external `wordList`. -/
structure Word where
  chinese : String
  english : String
  deriving DecidableEq

/-- The fields of the `Game` object that the game logic reads or writes. -/
structure Game where
  rows : Nat
  cols : Nat
  maze : Maze
  player : Cell
  exit : Cell
  currentWord : Option Word
  score : Int
  timeLeft : Int
  gameLoop : Option Nat
  isGameActive : Bool
  canMove : Bool
  lastTimerUpdate : Int
  promptShown : Bool
  deriving DecidableEq

/-- JavaScript `arr[i]` for a number `i`: `none` stands for `undefined`. -/
def jsIndex {α : Type} (arr : List α) (i : Int) : Option α :=
  if 0 ≤ i then arr.get? i.toNat else none

/-- The read `this.maze[y][x]`: a `TypeError` when `this.maze[y]` is
`undefined`, otherwise the entry or `undefined`. -/
def mazeRead (maze : Maze) (y x : Int) : Except Fault (Option Nat) :=
  match jsIndex maze y with
  | none => .error .typeError
  | some row => .ok (jsIndex row x)

/-- The write `this.maze[y][x] = v`: a `TypeError` when `this.maze[y]` is
`undefined`; a write outside the row is outside the model. -/
def mazeWrite (maze : Maze) (y x : Int) (v : Nat) : Except Fault Maze :=
  match jsIndex maze y with
  | none => .error .typeError
  | some row =>
    if 0 ≤ x ∧ x < row.length then .ok (maze.set y.toNat (row.set x.toNat v))
    else .error .unmodelled

/-- The index `Math.floor(Math.random() * n)` for the draw `r`. -/
def randIndex (r n : Nat) : Nat :=
  if n = 0 then 0 else r % n

/-- The four offsets tried by `getUnvisitedNeighbors`, in source order. -/
def directions : List Cell :=
  [⟨0, -2⟩, ⟨2, 0⟩, ⟨0, 2⟩, ⟨-2, 0⟩]

/-- The `for (const dir of directions)` loop of `getUnvisitedNeighbors`,
with the list `neighbors` built so far. -/
def neighborsLoop (rows cols : Nat) (maze : Maze) (cell : Cell) :
    List Cell → List Cell → Except Fault (List Cell)
  | [], neighbors => .ok neighbors
  | dir :: dirs, neighbors =>
    let newX := cell.x + dir.x
    let newY := cell.y + dir.y
    if newX ≥ 0 ∧ newX < cols ∧ newY ≥ 0 ∧ newY < rows then
      match mazeRead maze newY newX with
      | .error e => .error e
      | .ok v =>
        if v = some 1 then
          neighborsLoop rows cols maze cell dirs (neighbors ++ [⟨newX, newY⟩])
        else neighborsLoop rows cols maze cell dirs neighbors
    else neighborsLoop rows cols maze cell dirs neighbors

/-- The method `getUnvisitedNeighbors(cell)`. -/
def getUnvisitedNeighbors (rows cols : Nat) (maze : Maze) (cell : Cell) :
    Except Fault (List Cell) :=
  neighborsLoop rows cols maze cell directions []

/-- The local state of the carving loop of `generateMaze`: the grid, the
stack (top of the stack first) and the remaining random draws. -/
structure CarveState where
  maze : Maze
  stack : List Cell
  rnd : Nat → Nat

/-- One iteration of the `while (stack.length > 0)` loop, for a stack whose
top is `current`. -/
def carveStep (rows cols : Nat) (maze : Maze) (current : Cell) (rest : List Cell)
    (rnd : Nat → Nat) : Except Fault CarveState :=
  match getUnvisitedNeighbors rows cols maze current with
  | .error e => .error e
  | .ok neighbors =>
    if neighbors.length = 0 then .ok ⟨maze, rest, rnd⟩
    else
      match neighbors.get? (randIndex (rnd 0) neighbors.length) with
      | none => .error .typeError
      | some next =>
        match mazeWrite maze ((current.y + next.y) / 2) ((current.x + next.x) / 2) 0 with
        | .error e => .error e
        | .ok maze1 =>
          match mazeWrite maze1 next.y next.x 0 with
          | .error e => .error e
          | .ok maze2 => .ok ⟨maze2, next :: current :: rest, fun k => rnd (k + 1)⟩

/-- The `while (stack.length > 0)` loop of `generateMaze`, run for at most
`fuel` iterations; it returns the grid once the stack is empty. -/
def carveLoop (rows cols : Nat) : Nat → CarveState → Except Fault Maze
  | fuel, s =>
    match s.stack with
    | [] => .ok s.maze
    | current :: rest =>
      match fuel with
      | 0 => .error .outOfFuel
      | fuel + 1 =>
        match carveStep rows cols s.maze current rest s.rnd with
        | .error e => .error e
        | .ok s1 => carveLoop rows cols fuel s1

/-- The first three assignments of `generateMaze`: a fresh grid of walls,
the player at the origin and the exit in the bottom-right corner. -/
def initMaze (g : Game) : Game :=
  { g with
    maze := List.replicate g.rows (List.replicate g.cols 1)
    player := ⟨0, 0⟩
    exit := ⟨(g.cols : Int) - 1, (g.rows : Int) - 1⟩ }

/-- The method `generateMaze()`, with the carving loop given `fuel`
iterations. -/
def generateMaze (fuel : Nat) (rnd : Nat → Nat) (g : Game) : Except Fault Game :=
  let g0 := initMaze g
  match mazeWrite g0.maze g0.player.y g0.player.x 0 with
  | .error e => .error e
  | .ok m0 =>
    match carveLoop g0.rows g0.cols fuel ⟨m0, [g0.player], rnd⟩ with
    | .error e => .error e
    | .ok m1 =>
      match mazeWrite m1 g0.exit.y g0.exit.x 0 with
      | .error e => .error e
      | .ok m2 => .ok { g0 with maze := m2 }

/-- The method `showWordPrompt()`; `w` is the entry picked from `wordList`. -/
def showWordPrompt (w : Word) (g : Game) : Game :=
  { g with currentWord := some w, promptShown := true }

/-- The method `gameWon()`. -/
def gameWon (g : Game) : Game :=
  { g with
    isGameActive := false
    gameLoop := none
    score := g.score + g.timeLeft / 2
    promptShown := false }

/-- The method `gameOver()`. -/
def gameOver (g : Game) : Game :=
  { g with isGameActive := false, gameLoop := none, promptShown := false }

/-- The method `startGame()`: `now` is the clock reading, `w` the first
word picked and `handle` the interval handle returned by `setInterval`.  The
`catch` branch runs `gameOver`; the only `TypeError` of `generateMaze` is
the first write into a grid without rows, thrown right after the three
initial assignments. -/
def startGame (fuel : Nat) (now : Int) (rnd : Nat → Nat) (w : Word) (handle : Nat)
    (g : Game) : Except Fault Game :=
  let g1 := { g with
    isGameActive := true
    canMove := false
    score := 0
    timeLeft := 180
    lastTimerUpdate := now }
  match generateMaze fuel rnd g1 with
  | .ok g2 => .ok { showWordPrompt w g2 with gameLoop := some handle }
  | .error .typeError => .ok (gameOver (initMaze g1))
  | .error e => .error e

/-- A `for` loop whose body only reads: it runs the body on every element in
turn and stops at the first fault. -/
def forEach {α : Type} (body : α → Except Fault Unit) : List α → Except Fault Unit
  | [] => .ok ()
  | a :: rest =>
    match body a with
    | .error e => .error e
    | .ok _ => forEach body rest

/-- The method `drawMaze()`: it reads `this.maze[y][x]` for every `y` below
`this.rows` and every `x` below `this.cols`; the drawing itself is left
out. -/
def drawMaze (g : Game) : Except Fault Unit :=
  forEach (fun y : Nat =>
    forEach (fun x : Nat =>
      match mazeRead g.maze y x with
      | .error e => .error e
      | .ok _ => .ok ()) (List.range g.cols)) (List.range g.rows)

/-- The four offsets tried by `unlockMovement`, in source order. -/
def hintDirections : List Cell :=
  [⟨0, -1⟩, ⟨0, 1⟩, ⟨-1, 0⟩, ⟨1, 0⟩]

/-- The method `unlockMovement()`: it reads the maze at the in-bounds
neighbours of the player; the drawing itself is left out. -/
def unlockMovement (g : Game) : Except Fault Unit :=
  forEach (fun dir : Cell =>
    let newX := g.player.x + dir.x
    let newY := g.player.y + dir.y
    if newX ≥ 0 ∧ newX < g.cols ∧ newY ≥ 0 ∧ newY < g.rows then
      match mazeRead g.maze newY newX with
      | .error e => .error e
      | .ok _ => .ok ()
    else .ok ()) hintDirections

/-- The method `update()`: it changes no field of the session, but it reads
the maze and so can throw.  `drawPlayer` and `drawExit` only draw. -/
def update (g : Game) : Except Fault Unit :=
  if !g.isGameActive then .ok ()
  else
    match drawMaze g with
    | .error e => .error e
    | .ok _ => if !g.promptShown then unlockMovement g else .ok ()

/-- The method `resizeCanvas()`: `containerWidth` is
`container.clientWidth - 40` and `containerHeight` is
`Math.min(window.innerHeight * 0.6, 400)`, both in whole pixels.  A
container less than 15 px wide or less than 10 px high makes the cell size
`0` and the dimensions `Infinity` or `NaN`; that is outside the model.  A
handler that throws leaves the state it had reached, which is returned with
the fault. -/
def resizeCanvas (containerWidth containerHeight : Nat) (g : Game) :
    Except (Fault × Game) Game :=
  let cellSize := min (containerWidth / 15) (containerHeight / 10)
  if cellSize = 0 then .error (.unmodelled, g)
  else
    let g1 := { g with rows := containerHeight / cellSize, cols := containerWidth / cellSize }
    if g1.isGameActive then
      match update g1 with
      | .error e => .error (e, g1)
      | .ok _ => .ok g1
    else .ok g1

/-- The method `movePlayer(dx, dy)`; `w` is the word picked by the
`showWordPrompt()` call that follows a move that does not win.  A throw
leaves the state reached so far. -/
def movePlayer (dx dy : Int) (w : Word) (g : Game) : Except (Fault × Game) Game :=
  if !g.isGameActive || !g.canMove then .ok g
  else
    let newX := g.player.x + dx
    let newY := g.player.y + dy
    if newX ≥ 0 ∧ newX < g.cols ∧ newY ≥ 0 ∧ newY < g.rows then
      match mazeRead g.maze newY newX with
      | .error e => .error (e, g)
      | .ok v =>
        if v = some 0 then
          let g1 := { g with player := ⟨newX, newY⟩ }
          match update g1 with
          | .error e => .error (e, g1)
          | .ok _ =>
            let g2 := { g1 with canMove := false }
            if g2.player.x = g2.exit.x ∧ g2.player.y = g2.exit.y then .ok (gameWon g2)
            else .ok (showWordPrompt w g2)
        else .ok g
    else .ok g

/-- The `for (let i = 0; i < 3; i++)` loop of `triggerTrap`, with `n`
iterations left; each iteration draws `x` and then `y`.  A throw leaves the
grid as written so far. -/
def trapLoop (rows cols : Nat) : Nat → (Nat → Nat) → Maze → Except (Fault × Maze) Maze
  | 0, _, maze => .ok maze
  | n + 1, rnd, maze =>
    let x : Int := randIndex (rnd 0) cols
    let y : Int := randIndex (rnd 1) rows
    match mazeRead maze y x with
    | .error e => .error (e, maze)
    | .ok v =>
      if v = some 0 then
        match mazeWrite maze y x 1 with
        | .error e => .error (e, maze)
        | .ok maze1 => trapLoop rows cols n (fun k => rnd (k + 2)) maze1
      else trapLoop rows cols n (fun k => rnd (k + 2)) maze

/-- The method `triggerTrap()`. -/
def triggerTrap (rnd : Nat → Nat) (g : Game) : Except (Fault × Game) Game :=
  match trapLoop g.rows g.cols 3 rnd g.maze with
  | .error (e, maze) => .error (e, { g with maze := maze })
  | .ok maze => .ok { g with maze := maze }

/-- The method `checkAnswer()`: `raw` is the text of the input field,
`norm` the normalisation `toLowerCase().trim()` and `rnd` the draws of
the trap. -/
def checkAnswer (norm : String → String) (raw : String) (rnd : Nat → Nat) (g : Game) :
    Except (Fault × Game) Game :=
  let input := norm raw
  match g.currentWord with
  | none => .error (.typeError, g)
  | some word =>
    if input = word.english then
      let g1 := { g with score := g.score + 10, canMove := true, promptShown := false }
      match update g1 with
      | .error e => .error (e, g1)
      | .ok _ => .ok g1
    else triggerTrap rnd g

/-- The method `updateTimer()`: `now` is the clock reading of the test and
`now'` the reading stored in `lastTimerUpdate`. -/
def updateTimer (now now' : Int) (g : Game) : Game :=
  if !g.isGameActive then g
  else if g.timeLeft ≤ 0 then gameOver g
  else if now - g.lastTimerUpdate ≥ 1000 then
    { g with timeLeft := g.timeLeft - 1, lastTimerUpdate := now' }
  else g

/-- The callback of the interval started by `startGame`: `update()`, then
`updateTimer()`. -/
def tick (now now' : Int) (g : Game) : Except (Fault × Game) Game :=
  match update g with
  | .error e => .error (e, g)
  | .ok _ => .ok (updateTimer now now' g)

/-- What can happen to a running session: an answer is submitted, a move is
requested, the interval callback fires, or the window is resized. -/
inductive Event where
  | answer (raw : String) (rnd : Nat → Nat)
  | move (dx dy : Int) (w : Word)
  | tick (now now' : Int)
  | resize (containerWidth containerHeight : Nat)

/-- The handler run for one event. -/
def step (norm : String → String) (g : Game) : Event → Except (Fault × Game) Game
  | .answer raw rnd => checkAnswer norm raw rnd g
  | .move dx dy w => movePlayer dx dy w g
  | .tick now now' => tick now now' g
  | .resize containerWidth containerHeight => resizeCanvas containerWidth containerHeight g

/-- The handlers run for a sequence of events.  An uncaught `TypeError` ends
the handler that threw it, and the session goes on from the state that
handler had reached; a fault of the model itself ends the run. -/
def run (norm : String → String) : Game → List Event → Except Fault Game
  | g, [] => .ok g
  | g, e :: es =>
    match step norm g e with
    | .ok g1 => run norm g1 es
    | .error (.typeError, g1) => run norm g1 es
    | .error (f, _) => .error f

/-- The event is a resize of the window. -/
def Event.isResize : Event → Bool
  | .resize _ _ => true
  | _ => false

/-! ## Specification vocabulary -/

/-- The entry of the grid at column `x` and row `y`, if there is one. -/
def cellAt (maze : Maze) (x y : Int) : Option Nat :=
  (jsIndex maze y).bind (fun row => jsIndex row x)

/-- The grid has `rows` rows of `cols` entries each. -/
def IsGrid (rows cols : Nat) (maze : Maze) : Prop :=
  maze.length = rows ∧ ∀ row ∈ maze, row.length = cols

instance (rows cols : Nat) (maze : Maze) : Decidable (IsGrid rows cols maze) := by
  unfold IsGrid; infer_instance

/-- Two positions are neighbours in one of the four axis directions. -/
def Adjacent (x y x' y' : Int) : Prop :=
  (x' = x ∧ (y' = y + 1 ∨ y' = y - 1)) ∨ (y' = y ∧ (x' = x + 1 ∨ x' = x - 1))

/-- The cell `(x, y)` can be reached from the start cell `(0, 0)` by a path
of 4-adjacent open cells (the start cell itself has to be open). -/
inductive Reachable (maze : Maze) : Int → Int → Prop where
  | start : cellAt maze 0 0 = some 0 → Reachable maze 0 0
  | move {x y x' y' : Int} : Reachable maze x y → Adjacent x y x' y' →
      cellAt maze x' y' = some 0 → Reachable maze x' y'

/-- The position is inside the `rows` by `cols` grid. -/
def InBounds (rows cols : Nat) (x y : Int) : Prop :=
  0 ≤ x ∧ x < cols ∧ 0 ≤ y ∧ y < rows

instance (rows cols : Nat) (x y : Int) : Decidable (InBounds rows cols x y) := by
  unfold InBounds; infer_instance

/-- The offset `dir` from `cell` leads to a wall inside the grid. -/
def WallAt (rows cols : Nat) (maze : Maze) (cell dir : Cell) : Prop :=
  InBounds rows cols (cell.x + dir.x) (cell.y + dir.y) ∧
    cellAt maze (cell.x + dir.x) (cell.y + dir.y) = some 1

instance (rows cols : Nat) (maze : Maze) (cell dir : Cell) :
    Decidable (WallAt rows cols maze cell dir) := by
  unfold WallAt; infer_instance

/-- The invariant of the carving loop of `generateMaze`. -/
structure CarveInv (rows cols : Nat) (maze : Maze) (stack : List Cell) : Prop where
  grid : IsGrid rows cols maze
  bits : ∀ x y v, cellAt maze x y = some v → v = 0 ∨ v = 1
  origin : cellAt maze 0 0 = some 0
  onStack : ∀ c ∈ stack, InBounds rows cols c.x c.y ∧ c.x % 2 = 0 ∧ c.y % 2 = 0 ∧
    cellAt maze c.x c.y = some 0
  closed : ∀ x y, x % 2 = 0 → y % 2 = 0 → cellAt maze x y = some 0 →
    (⟨x, y⟩ : Cell) ∈ stack ∨ ∀ dir ∈ directions,
      InBounds rows cols (x + dir.x) (y + dir.y) → cellAt maze (x + dir.x) (y + dir.y) = some 0
  reach : ∀ x y, cellAt maze x y = some 0 → Reachable maze x y
  lattice : ∀ x y, cellAt maze x y = some 0 →
    (x % 2 = 0 ∨ y % 2 = 0) ∧ (x % 2 = 1 → x + 1 < cols) ∧ (y % 2 = 1 → y + 1 < rows)

/-- The wall cells of the grid, as a finite set of (column, row) pairs. -/
def wallCells (rows cols : Nat) (maze : Maze) : Finset (Nat × Nat) :=
  (Finset.range cols ×ˢ Finset.range rows).filter
    (fun p => cellAt maze (p.1 : Int) (p.2 : Int) = some 1)

/-- The quantity that decreases with every iteration of the carving loop. -/
def carveMeasure (rows cols : Nat) (maze : Maze) (stack : List Cell) : Nat :=
  2 * (wallCells rows cols maze).card + stack.length

/-- The grid `maze2` is `maze` with the cells `(x1, y1)` and `(x2, y2)` opened. -/
def OpenedTwo (maze maze2 : Maze) (x1 y1 x2 y2 : Int) : Prop :=
  ∀ x y, cellAt maze2 x y =
    if (x = x1 ∧ y = y1) ∨ (x = x2 ∧ y = y2) then some 0 else cellAt maze x y

/-- The state of a `Game` object after its constructor, for a canvas that
fits `rows` by `cols` cells.  The field `lastTimerUpdate` is not assigned
before `startGame`; it is `0` here. -/
def newGame (rows cols : Nat) : Game :=
  { rows := rows
    cols := cols
    maze := []
    player := ⟨0, 0⟩
    exit := ⟨0, 0⟩
    currentWord := none
    score := 0
    timeLeft := 180
    gameLoop := none
    isGameActive := false
    canMove := false
    lastTimerUpdate := 0
    promptShown := false }

/-- The guard of `movePlayer` in words: the game is active, movement is
unlocked, and the destination is an open cell inside the grid. -/
def CanStep (g : Game) (dx dy : Int) : Prop :=
  g.isGameActive = true ∧ g.canMove = true ∧
    InBounds g.rows g.cols (g.player.x + dx) (g.player.y + dy) ∧
    cellAt g.maze (g.player.x + dx) (g.player.y + dy) = some 0

instance (g : Game) (dx dy : Int) : Decidable (CanStep g dx dy) := by
  unfold CanStep; infer_instance

/-- The state after a move that passed the guard of `movePlayer`. -/
def moved (dx dy : Int) (w : Word) (g : Game) : Game :=
  let g1 := { g with player := ⟨g.player.x + dx, g.player.y + dy⟩, canMove := false }
  if g1.player.x = g1.exit.x ∧ g1.player.y = g1.exit.y then gameWon g1
  else showWordPrompt w g1

/-- The cells drawn by the `n` remaining iterations of `triggerTrap`. -/
def trapPicks (rows cols : Nat) : Nat → (Nat → Nat) → List (Int × Int)
  | 0, _ => []
  | n + 1, rnd =>
    ((randIndex (rnd 0) cols : Int), (randIndex (rnd 1) rows : Int)) ::
      trapPicks rows cols n (fun k => rnd (k + 2))

/-- A session on a grid of three rows and three columns in which an answer
has just been accepted: the player stands on the start cell and may move. -/
def unlockedGame : Game :=
  { rows := 3
    cols := 3
    maze := [[0, 0, 0], [1, 1, 0], [0, 0, 0]]
    player := ⟨0, 0⟩
    exit := ⟨2, 2⟩
    currentWord := some ⟨"mao", "cat"⟩
    score := 10
    timeLeft := 170
    gameLoop := some 1
    isGameActive := true
    canMove := true
    lastTimerUpdate := 10000
    promptShown := false }

/-- The submitted text, once normalised, equals the answer of the current
challenge. -/
def IsCorrect (norm : String → String) (g : Game) (raw : String) : Prop :=
  match g.currentWord with
  | some word => norm raw = word.english
  | none => False

instance (norm : String → String) (g : Game) (raw : String) :
    Decidable (IsCorrect norm g raw) := by
  unfold IsCorrect; split <;> infer_instance

/-- A move request that passes the guard of `movePlayer` and lands on the
exit cell. -/
def Wins (g : Game) (dx dy : Int) : Prop :=
  CanStep g dx dy ∧ g.player.x + dx = g.exit.x ∧ g.player.y + dy = g.exit.y

instance (g : Game) (dx dy : Int) : Decidable (Wins g dx dy) := by
  unfold Wins; infer_instance

/-- A session state on which no handler can throw: the maze is a grid of
`rows` by `cols` cells with at least one row, and a challenge is set. -/
def Sound (g : Game) : Prop :=
  IsGrid g.rows g.cols g.maze ∧ 1 ≤ g.rows ∧ ∃ word, g.currentWord = some word

/-- What an event amounts to in the state in which it arrives. -/
inductive Label where
  | correct
  | wrong
  | moved
  | blocked
  | tick
  | resized
  deriving DecidableEq

/-- The label of an event arriving in state `g`. -/
def label (norm : String → String) (g : Game) : Event → Label
  | .answer raw _ => if IsCorrect norm g raw then .correct else .wrong
  | .move dx dy _ => if CanStep g dx dy then .moved else .blocked
  | .tick _ _ => .tick
  | .resize _ _ => .resized

/-- The state in which a handler leaves the session, whether it returned or
threw. -/
def settle : Except (Fault × Game) Game → Game
  | .ok g => g
  | .error (_, g) => g

/-- The labels of a sequence of events handled from state `g` on. -/
def trace (norm : String → String) : Game → List Event → List Label
  | _, [] => []
  | g, e :: es => label norm g e :: trace norm (settle (step norm g e)) es

/-- The score an event arriving in state `g` is expected to add: 10 for a
correct answer, `floor(timeLeft / 2)` for a move onto the exit, 0 otherwise. -/
def scoreDelta (norm : String → String) (g : Game) : Event → Int
  | .answer raw _ => if IsCorrect norm g raw then 10 else 0
  | .move dx dy _ => if Wins g dx dy then g.timeLeft / 2 else 0
  | .tick _ _ => 0
  | .resize _ _ => 0

/-- The number of moves onto the exit in a sequence of events handled from
state `g` on. -/
def winCount (norm : String → String) : Game → List Event → Nat
  | _, [] => 0
  | g, e :: es =>
    (match e with
      | .move dx dy _ => if Wins g dx dy then 1 else 0
      | _ => 0) + winCount norm (settle (step norm g e)) es

/-- The event is not an incorrect answer whose trap draws hit the cell of
the player or the exit cell. -/
def AvoidsTrap (norm : String → String) (g : Game) : Event → Prop
  | .answer raw rnd => IsCorrect norm g raw ∨
      ∀ p ∈ trapPicks g.rows g.cols 3 rnd,
        p ≠ (g.player.x, g.player.y) ∧ p ≠ (g.exit.x, g.exit.y)
  | _ => True

/-- Every event of the sequence, handled from state `g` on, avoids the
cells of the player and the exit with its trap. -/
def SafeRun (norm : String → String) : Game → List Event → Prop
  | _, [] => True
  | g, e :: es => AvoidsTrap norm g e ∧ SafeRun norm (settle (step norm g e)) es

/-- A session on the grid of a 600 by 400 px container (10 rows, 15
columns): one correct answer, a resize to a 540 by 400 px container, and two
requests to move right. -/
def lockDemo : List Event :=
  [.answer "cat" (fun _ => 0), .resize 540 400, .move 1 0 ⟨"gou", "dog"⟩,
    .move 1 0 ⟨"gou", "dog"⟩]

/-- Twenty-two rounds of a correct answer followed by a move, which take the
player of `startGame 300 0 (fun _ => 0)` on 10 rows and 15 columns from
`(0, 0)` along the top row and down the last column to `(14, 8)`, the cell
above the exit. -/
def walkToExit : List Event :=
  (List.replicate 14
    [Event.answer "cat" (fun _ => 0), Event.move 1 0 ⟨"mao", "cat"⟩]).flatten ++
  (List.replicate 8
    [Event.answer "cat" (fun _ => 0), Event.move 0 1 ⟨"mao", "cat"⟩]).flatten

/-- The event is inside the model: a resize leaves a cell size above zero. -/
def Event.inModel : Event → Bool
  | .resize containerWidth containerHeight =>
    decide (min (containerWidth / 15) (containerHeight / 10) ≠ 0)
  | _ => true

/-! ## Reading and writing a well-formed grid -/

theorem jsIndex_some_of_lt {α : Type} (arr : List α) (i : Int) (h0 : 0 ≤ i)
    (h1 : i < arr.length) : ∃ a, jsIndex arr i = some a ∧ a ∈ arr := by
  have hlt : i.toNat < arr.length := by omega
  refine ⟨arr[i.toNat], ?_, List.getElem_mem hlt⟩
  simp [jsIndex, h0, List.get?_eq_getElem?, List.getElem?_eq_getElem hlt]

theorem jsIndex_none_of_out {α : Type} (arr : List α) (i : Int)
    (h : ¬ (0 ≤ i ∧ i < arr.length)) : jsIndex arr i = none := by
  unfold jsIndex
  split
  · rw [List.get?_eq_getElem?]
    apply List.getElem?_eq_none
    omega
  · rfl

theorem jsIndex_set {α : Type} (arr : List α) (i j : Int) (a : α) (h0 : 0 ≤ i)
    (h1 : i < arr.length) :
    jsIndex (arr.set i.toNat a) j = if j = i then some a else jsIndex arr j := by
  unfold jsIndex
  by_cases hj : 0 ≤ j
  · simp only [hj, if_true, List.get?_eq_getElem?, List.getElem?_set]
    by_cases hij : j = i
    · subst hij
      have : j.toNat < arr.length := by omega
      simp [this]
    · have : i.toNat ≠ j.toNat := by omega
      simp [this, hij]
  · have : j ≠ i := by omega
    simp [hj, this]

theorem IsGrid.row_of_index {rows cols : Nat} {maze : Maze} (hg : IsGrid rows cols maze)
    {y : Int} (h0 : 0 ≤ y) (h1 : y < rows) :
    ∃ row, jsIndex maze y = some row ∧ row.length = cols := by
  obtain ⟨row, hrow, hmem⟩ := jsIndex_some_of_lt maze y h0 (by rw [hg.1]; exact h1)
  exact ⟨row, hrow, hg.2 row hmem⟩

theorem cellAt_some_of_inBounds {rows cols : Nat} {maze : Maze} (hg : IsGrid rows cols maze)
    {x y : Int} (hx0 : 0 ≤ x) (hx1 : x < cols) (hy0 : 0 ≤ y) (hy1 : y < rows) :
    ∃ v, cellAt maze x y = some v := by
  obtain ⟨row, hrow, hlen⟩ := hg.row_of_index hy0 hy1
  obtain ⟨v, hv, -⟩ := jsIndex_some_of_lt row x hx0 (by rw [hlen]; exact hx1)
  exact ⟨v, by simp [cellAt, hrow, hv]⟩

theorem cellAt_inBounds_of_some {rows cols : Nat} {maze : Maze} (hg : IsGrid rows cols maze)
    {x y : Int} {v : Nat} (h : cellAt maze x y = some v) :
    0 ≤ x ∧ x < cols ∧ 0 ≤ y ∧ y < rows := by
  by_cases hy : 0 ≤ y ∧ y < rows
  · obtain ⟨row, hrow, hlen⟩ := hg.row_of_index hy.1 hy.2
    by_cases hx : 0 ≤ x ∧ x < cols
    · exact ⟨hx.1, hx.2, hy.1, hy.2⟩
    · have := jsIndex_none_of_out row x (by rw [hlen]; exact hx)
      simp [cellAt, hrow, this] at h
  · have := jsIndex_none_of_out maze y (by rw [hg.1]; exact hy)
    simp [cellAt, this] at h

theorem mazeRead_of_grid {rows cols : Nat} {maze : Maze} (hg : IsGrid rows cols maze)
    {y : Int} (x : Int) (hy0 : 0 ≤ y) (hy1 : y < rows) :
    mazeRead maze y x = .ok (cellAt maze x y) := by
  obtain ⟨row, hrow, -⟩ := hg.row_of_index hy0 hy1
  simp [mazeRead, cellAt, hrow]

theorem mazeWrite_of_grid {rows cols : Nat} {maze : Maze} (hg : IsGrid rows cols maze)
    {x y : Int} (v : Nat) (hx0 : 0 ≤ x) (hx1 : x < cols) (hy0 : 0 ≤ y) (hy1 : y < rows) :
    ∃ maze1, mazeWrite maze y x v = .ok maze1 ∧ IsGrid rows cols maze1 ∧
      ∀ x1 y1, cellAt maze1 x1 y1 = if x1 = x ∧ y1 = y then some v else cellAt maze x1 y1 := by
  obtain ⟨row, hrow, hlen⟩ := hg.row_of_index hy0 hy1
  have hxl : x < row.length := by rw [hlen]; exact hx1
  have hyl : y < maze.length := by rw [hg.1]; exact hy1
  refine ⟨maze.set y.toNat (row.set x.toNat v), ?_, ⟨?_, ?_⟩, ?_⟩
  · simp [mazeWrite, hrow, hx0, hxl]
  · rw [List.length_set]; exact hg.1
  · intro r hr
    rcases List.mem_or_eq_of_mem_set hr with h | h
    · exact hg.2 r h
    · rw [h, List.length_set]; exact hlen
  · intro x1 y1
    unfold cellAt
    rw [jsIndex_set maze y y1 _ hy0 hyl]
    by_cases hy : y1 = y
    · subst hy
      simp only [if_true, Option.bind_some, and_true, hrow]
      exact jsIndex_set row x x1 v hx0 hxl
    · simp [hy]

/-! ## The neighbour scan -/

theorem neighborsLoop_of_grid {rows cols : Nat} {maze : Maze} (hg : IsGrid rows cols maze)
    (cell : Cell) (dirs acc : List Cell) :
    neighborsLoop rows cols maze cell dirs acc = .ok (acc ++
      (dirs.filter (fun dir => decide (WallAt rows cols maze cell dir))).map
        (fun dir => ⟨cell.x + dir.x, cell.y + dir.y⟩)) := by
  induction dirs generalizing acc with
  | nil => simp [neighborsLoop]
  | cons dir dirs ih =>
    unfold neighborsLoop
    by_cases hb : InBounds rows cols (cell.x + dir.x) (cell.y + dir.y)
    · have hb1 := hb
      unfold InBounds at hb1
      simp only [ge_iff_le, hb1, and_self, if_true]
      rw [mazeRead_of_grid hg _ hb1.2.2.1 hb1.2.2.2]
      by_cases hw : cellAt maze (cell.x + dir.x) (cell.y + dir.y) = some 1
      · have : WallAt rows cols maze cell dir := ⟨hb, hw⟩
        simp [hw, ih, List.filter, this]
      · have : ¬ WallAt rows cols maze cell dir := fun h => hw h.2
        simp [hw, ih, List.filter, this]
    · have : ¬ WallAt rows cols maze cell dir := fun h => hb h.1
      have hb1 : ¬ (cell.x + dir.x ≥ 0 ∧ cell.x + dir.x < cols ∧ cell.y + dir.y ≥ 0 ∧
          cell.y + dir.y < rows) := hb
      simp only [hb1, if_false]
      simp [ih, List.filter, this]

theorem getUnvisitedNeighbors_of_grid {rows cols : Nat} {maze : Maze}
    (hg : IsGrid rows cols maze) (cell : Cell) :
    getUnvisitedNeighbors rows cols maze cell = .ok
      ((directions.filter (fun dir => decide (WallAt rows cols maze cell dir))).map
        (fun dir => ⟨cell.x + dir.x, cell.y + dir.y⟩)) := by
  unfold getUnvisitedNeighbors
  rw [neighborsLoop_of_grid hg]
  simp

/-! ## The carving loop -/

theorem randIndex_lt (r n : Nat) (h : n ≠ 0) : randIndex r n < n := by
  unfold randIndex
  rw [if_neg h]
  exact Nat.mod_lt _ (Nat.pos_of_ne_zero h)

theorem directions_shape {dir : Cell} (h : dir ∈ directions) :
    (dir.x = 0 ∧ (dir.y = 2 ∨ dir.y = -2)) ∨ (dir.y = 0 ∧ (dir.x = 2 ∨ dir.x = -2)) := by
  simp [directions] at h
  rcases h with h | h | h | h <;> subst h <;> simp

theorem Reachable.mono {maze maze1 : Maze}
    (hm : ∀ x y, cellAt maze x y = some 0 → cellAt maze1 x y = some 0) {x y : Int}
    (h : Reachable maze x y) : Reachable maze1 x y := by
  induction h with
  | start h0 => exact Reachable.start (hm 0 0 h0)
  | move _ hadj hopen ih => exact Reachable.move ih hadj (hm _ _ hopen)

/-- What one iteration computes on a well-formed grid: a pop when the stack
top has no wall neighbour, otherwise a push of one of its wall neighbours
after opening it and the cell in between. -/
theorem carveStep_eval {rows cols : Nat} {maze : Maze} (hg : IsGrid rows cols maze)
    {current : Cell} (hcb : InBounds rows cols current.x current.y) (rest : List Cell)
    (rnd : Nat → Nat) :
    ((∀ dir ∈ directions, ¬ WallAt rows cols maze current dir) ∧
      carveStep rows cols maze current rest rnd = .ok ⟨maze, rest, rnd⟩) ∨
    (∃ dir ∈ directions, WallAt rows cols maze current dir ∧ ∃ maze2,
      carveStep rows cols maze current rest rnd =
        .ok ⟨maze2, ⟨current.x + dir.x, current.y + dir.y⟩ :: current :: rest,
          fun k => rnd (k + 1)⟩ ∧
      IsGrid rows cols maze2 ∧
      OpenedTwo maze maze2 (current.x + dir.x) (current.y + dir.y)
        ((current.x + (current.x + dir.x)) / 2) ((current.y + (current.y + dir.y)) / 2)) := by
  set L := (directions.filter (fun dir => decide (WallAt rows cols maze current dir))).map
    (fun dir => (⟨current.x + dir.x, current.y + dir.y⟩ : Cell)) with hLdef
  by_cases hLne : L.length = 0
  · left
    constructor
    · intro d hd hw
      have : (⟨current.x + d.x, current.y + d.y⟩ : Cell) ∈ L := by
        rw [hLdef, List.mem_map]
        exact ⟨d, List.mem_filter.2 ⟨hd, decide_eq_true hw⟩, rfl⟩
      rw [List.length_eq_zero] at hLne
      rw [hLne] at this
      exact absurd this (List.not_mem_nil _)
    · unfold carveStep
      rw [getUnvisitedNeighbors_of_grid hg]
      simp only [← hLdef, hLne, if_true]
  · right
    have hidx := randIndex_lt (rnd 0) L.length hLne
    obtain ⟨next, hnext⟩ : ∃ next, L.get? (randIndex (rnd 0) L.length) = some next :=
      ⟨L[randIndex (rnd 0) L.length], by
        rw [List.get?_eq_getElem?, List.getElem?_eq_getElem hidx]⟩
    have hmem : next ∈ L := List.get?_mem hnext
    rw [hLdef, List.mem_map] at hmem
    obtain ⟨dir, hdirf, hdn⟩ := hmem
    rw [List.mem_filter] at hdirf
    obtain ⟨hdir, hwall⟩ := hdirf
    have hwall := of_decide_eq_true hwall
    have hnb := hwall.1
    unfold InBounds at hnb hcb
    have hshape := directions_shape hdir
    obtain ⟨maze1, hw1, hg1, hc1⟩ := mazeWrite_of_grid hg 0
      (x := (current.x + (current.x + dir.x)) / 2) (y := (current.y + (current.y + dir.y)) / 2)
      (by omega) (by omega) (by omega) (by omega)
    obtain ⟨maze2, hw2, hg2, hc2⟩ := mazeWrite_of_grid hg1 0 (x := current.x + dir.x)
      (y := current.y + dir.y) hnb.1 hnb.2.1 hnb.2.2.1 hnb.2.2.2
    refine ⟨dir, hdir, hwall, maze2, ?_, hg2, ?_⟩
    · unfold carveStep
      rw [getUnvisitedNeighbors_of_grid hg]
      simp only [← hLdef, hLne, if_false, hnext, ← hdn, hw1, hw2]
    · intro x y
      rw [hc2, hc1]
      by_cases h1 : x = current.x + dir.x ∧ y = current.y + dir.y
      · simp [h1]
      · by_cases h2 : x = (current.x + (current.x + dir.x)) / 2 ∧
            y = (current.y + (current.y + dir.y)) / 2
        · simp [h2]
        · simp [h1, h2]

/-- The invariant survives a pop. -/
theorem CarveInv.pop {rows cols : Nat} {maze : Maze} {current : Cell} {rest : List Cell}
    (h : CarveInv rows cols maze (current :: rest))
    (hn : ∀ dir ∈ directions, ¬ WallAt rows cols maze current dir) :
    CarveInv rows cols maze rest := by
  refine ⟨h.grid, h.bits, h.origin, ?_, ?_, h.reach, h.lattice⟩
  · intro c hc
    exact h.onStack c (List.mem_cons_of_mem _ hc)
  · intro x y hx hy ho
    rcases h.closed x y hx hy ho with hs | hs
    · rcases List.mem_cons.1 hs with he | hr
      · right
        intro dir hdir hb
        have hcur : current.x = x ∧ current.y = y := by
          rw [← he]; exact ⟨rfl, rfl⟩
        rw [← hcur.1, ← hcur.2] at hb ⊢
        obtain ⟨v, hv⟩ := cellAt_some_of_inBounds h.grid hb.1 hb.2.1 hb.2.2.1 hb.2.2.2
        rcases h.bits _ _ v hv with h0 | h1
        · rw [hv, h0]
        · exact absurd ⟨hb, by rw [hv, h1]⟩ (hn dir hdir)
      · exact Or.inl hr
    · exact Or.inr hs

/-- The invariant survives a push. -/
theorem CarveInv.push {rows cols : Nat} {maze maze2 : Maze} {current dir : Cell}
    {rest : List Cell} (h : CarveInv rows cols maze (current :: rest))
    (hdir : dir ∈ directions) (hwall : WallAt rows cols maze current dir)
    (hg2 : IsGrid rows cols maze2)
    (hcell : OpenedTwo maze maze2 (current.x + dir.x) (current.y + dir.y)
      ((current.x + (current.x + dir.x)) / 2) ((current.y + (current.y + dir.y)) / 2)) :
    CarveInv rows cols maze2 (⟨current.x + dir.x, current.y + dir.y⟩ :: current :: rest) := by
  obtain ⟨hcb, hcx, hcy, hco⟩ := h.onStack current (List.mem_cons_self _ _)
  have hnb := hwall.1
  unfold InBounds at hcb hnb
  have hshape := directions_shape hdir
  unfold OpenedTwo at hcell
  have hmono : ∀ x y, cellAt maze x y = some 0 → cellAt maze2 x y = some 0 := by
    intro x y ho
    rw [hcell]
    split
    · rfl
    · exact ho
  refine ⟨hg2, ?_, hmono 0 0 h.origin, ?_, ?_, ?_, ?_⟩
  · intro x y v hv
    rw [hcell] at hv
    split at hv
    · left; exact (Option.some.inj hv).symm
    · exact h.bits x y v hv
  · intro c hc
    rcases List.mem_cons.1 hc with he | hr
    · subst he
      refine ⟨hwall.1, by simp only; omega, by simp only; omega, ?_⟩
      rw [hcell]; simp
    · obtain ⟨a, b, c1, d⟩ := h.onStack c hr
      exact ⟨a, b, c1, hmono _ _ d⟩
  · intro x y hx hy ho
    rw [hcell] at ho
    split at ho
    · rename_i hc
      rcases hc with hc | hc
      · left
        rw [hc.1, hc.2]; exact List.mem_cons_self _ _
      · exfalso; omega
    · rcases h.closed x y hx hy ho with hs | hs
      · exact Or.inl (List.mem_cons_of_mem _ hs)
      · exact Or.inr (fun d hd hb => hmono _ _ (hs d hd hb))
  · intro x y ho
    have hrc : Reachable maze2 current.x current.y :=
      Reachable.mono hmono (h.reach _ _ hco)
    have hmid : Reachable maze2 ((current.x + (current.x + dir.x)) / 2)
        ((current.y + (current.y + dir.y)) / 2) := by
      refine Reachable.move hrc ?_ (by rw [hcell]; simp)
      unfold Adjacent; omega
    have hnr : Reachable maze2 (current.x + dir.x) (current.y + dir.y) := by
      refine Reachable.move hmid ?_ (by rw [hcell]; simp)
      unfold Adjacent; omega
    rw [hcell] at ho
    split at ho
    · rename_i hc
      rcases hc with hc | hc
      · rw [hc.1, hc.2]; exact hnr
      · rw [hc.1, hc.2]; exact hmid
    · exact Reachable.mono hmono (h.reach _ _ ho)
  · intro x y ho
    rw [hcell] at ho
    split at ho
    · rename_i hc
      omega
    · exact h.lattice x y ho

/-- Opening a wall cell of the grid lowers the number of wall cells. -/
theorem wallCells_card_lt {rows cols : Nat} {maze maze2 : Maze} {x1 y1 x2 y2 : Int}
    (hb : InBounds rows cols x1 y1) (hw : cellAt maze x1 y1 = some 1)
    (hcell : OpenedTwo maze maze2 x1 y1 x2 y2) :
    (wallCells rows cols maze2).card < (wallCells rows cols maze).card := by
  apply Finset.card_lt_card
  unfold InBounds at hb
  unfold OpenedTwo at hcell
  rw [Finset.ssubset_iff_of_subset]
  · refine ⟨(x1.toNat, y1.toNat), ?_, ?_⟩
    · simp only [wallCells, Finset.mem_filter, Finset.mem_product, Finset.mem_range]
      have h1 : ((x1.toNat : Nat) : Int) = x1 := Int.toNat_of_nonneg hb.1
      have h2 : ((y1.toNat : Nat) : Int) = y1 := Int.toNat_of_nonneg hb.2.2.1
      rw [h1, h2]
      exact ⟨⟨by omega, by omega⟩, hw⟩
    · simp only [wallCells, Finset.mem_filter, Finset.mem_product, Finset.mem_range, not_and]
      intro _
      have h1 : ((x1.toNat : Nat) : Int) = x1 := Int.toNat_of_nonneg hb.1
      have h2 : ((y1.toNat : Nat) : Int) = y1 := Int.toNat_of_nonneg hb.2.2.1
      rw [h1, h2, hcell]
      simp
  · intro p hp
    simp only [wallCells, Finset.mem_filter] at hp ⊢
    refine ⟨hp.1, ?_⟩
    have := hp.2
    rw [hcell] at this
    split at this
    · simp at this
    · exact this

theorem carveStep_inv {rows cols : Nat} {maze : Maze} {current : Cell} {rest : List Cell}
    (h : CarveInv rows cols maze (current :: rest)) (rnd : Nat → Nat) :
    ∃ s1, carveStep rows cols maze current rest rnd = .ok s1 ∧
      CarveInv rows cols s1.maze s1.stack ∧
      carveMeasure rows cols s1.maze s1.stack <
        carveMeasure rows cols maze (current :: rest) := by
  have hcb := (h.onStack current (List.mem_cons_self _ _)).1
  rcases carveStep_eval h.grid hcb rest rnd with ⟨hn, hs⟩ | ⟨dir, hdir, hwall, maze2, hs, hg2, hcell⟩
  · refine ⟨_, hs, h.pop hn, ?_⟩
    simp [carveMeasure]
  · refine ⟨_, hs, h.push hdir hwall hg2 hcell, ?_⟩
    have := wallCells_card_lt hwall.1 hwall.2 hcell
    simp only [carveMeasure, List.length_cons]
    omega

theorem carveLoop_spec {rows cols : Nat} (fuel : Nat) :
    ∀ s : CarveState, CarveInv rows cols s.maze s.stack →
      carveMeasure rows cols s.maze s.stack ≤ fuel →
      ∃ m, carveLoop rows cols fuel s = .ok m ∧ CarveInv rows cols m [] := by
  induction fuel with
  | zero =>
    intro s h hm
    obtain ⟨maze, stack, rnd⟩ := s
    cases stack with
    | nil => exact ⟨maze, by simp [carveLoop], h⟩
    | cons c rest => simp [carveMeasure] at hm
  | succ fuel ih =>
    intro s h hm
    obtain ⟨maze, stack, rnd⟩ := s
    cases stack with
    | nil => exact ⟨maze, by simp [carveLoop], h⟩
    | cons c rest =>
      obtain ⟨s1, hs1, hinv, hlt⟩ := carveStep_inv h rnd
      obtain ⟨m, hm1, hm2⟩ := ih s1 hinv (by simp only at hm hlt; omega)
      refine ⟨m, ?_, hm2⟩
      rw [carveLoop]
      simp only [hs1]
      exact hm1

theorem jsIndex_mem {α : Type} {arr : List α} {i : Int} {a : α} (h : jsIndex arr i = some a) :
    a ∈ arr := by
  unfold jsIndex at h
  split at h
  · exact List.get?_mem h
  · simp at h

theorem isGrid_replicate (rows cols : Nat) :
    IsGrid rows cols (List.replicate rows (List.replicate cols 1)) := by
  constructor
  · simp
  · intro row hrow
    rw [List.eq_of_mem_replicate hrow]
    simp

theorem cellAt_replicate {rows cols : Nat} {x y : Int} {v : Nat}
    (h : cellAt (List.replicate rows (List.replicate cols 1)) x y = some v) : v = 1 := by
  unfold cellAt at h
  cases hrow : jsIndex (List.replicate rows (List.replicate cols 1)) y with
  | none => simp [hrow] at h
  | some row =>
    rw [hrow] at h
    have h2 : jsIndex row x = some v := h
    have h1 := List.eq_of_mem_replicate (jsIndex_mem hrow)
    rw [h1] at h2
    exact List.eq_of_mem_replicate (jsIndex_mem h2)

/-- The state in which the carving loop starts satisfies the invariant and
has measure below `2 * rows * cols`. -/
theorem carve_start {rows cols : Nat} (hr : 1 ≤ rows) (hc : 1 ≤ cols) :
    ∃ m0, mazeWrite (List.replicate rows (List.replicate cols 1)) 0 0 0 = .ok m0 ∧
      CarveInv rows cols m0 [⟨0, 0⟩] ∧
      carveMeasure rows cols m0 [⟨0, 0⟩] < 2 * rows * cols := by
  obtain ⟨m0, hw, hg, hcell⟩ := mazeWrite_of_grid (isGrid_replicate rows cols) 0
    (x := 0) (y := 0) (le_refl _) (by omega) (le_refl _) (by omega)
  have hopen : ∀ x y, cellAt m0 x y = some 0 → x = 0 ∧ y = 0 := by
    intro x y ho
    rw [hcell] at ho
    split at ho
    · assumption
    · have := cellAt_replicate ho
      omega
  have h00 : cellAt m0 0 0 = some 0 := by rw [hcell]; simp
  refine ⟨m0, hw, ⟨hg, ?_, h00, ?_, ?_, ?_, ?_⟩, ?_⟩
  · intro x y v hv
    rw [hcell] at hv
    split at hv
    · left; exact (Option.some.inj hv).symm
    · right; exact cellAt_replicate hv
  · intro c hc1
    rw [List.mem_singleton] at hc1
    subst hc1
    refine ⟨⟨le_refl _, by simp only; omega, le_refl _, by simp only; omega⟩, rfl, rfl, h00⟩
  · intro x y _ _ ho
    left
    obtain ⟨hx, hy⟩ := hopen x y ho
    rw [hx, hy]
    exact List.mem_singleton_self _
  · intro x y ho
    obtain ⟨hx, hy⟩ := hopen x y ho
    rw [hx, hy]
    exact Reachable.start h00
  · intro x y ho
    obtain ⟨hx, hy⟩ := hopen x y ho
    subst hx; subst hy
    simp
  · have hlt : (wallCells rows cols m0).card < (Finset.range cols ×ˢ Finset.range rows).card := by
      apply Finset.card_lt_card
      unfold wallCells
      rw [Finset.filter_ssubset]
      refine ⟨(0, 0), ?_, ?_⟩
      · simp only [Finset.mem_product, Finset.mem_range]
        omega
      · simp only [Nat.cast_zero, h00]
        simp
    rw [Finset.card_product, Finset.card_range, Finset.card_range] at hlt
    simp only [carveMeasure, List.length_singleton]
    have : cols * rows = rows * cols := Nat.mul_comm _ _
    have h2 : 2 * rows * cols = 2 * (rows * cols) := Nat.mul_assoc _ _ _
    omega

/-! ## The generated maze -/

/-- What `generateMaze` returns for a grid with at least one row and one
column, given enough fuel: the grid left by the carving loop, which
satisfies the loop invariant with an empty stack, with the exit cell
opened. -/
theorem generateMaze_spec (g : Game) (rnd : Nat → Nat) (fuel : Nat) (hr : 1 ≤ g.rows)
    (hc : 1 ≤ g.cols) (hf : 2 * g.rows * g.cols ≤ fuel) :
    ∃ m1 m2, generateMaze fuel rnd g = .ok { initMaze g with maze := m2 } ∧
      CarveInv g.rows g.cols m1 [] ∧ IsGrid g.rows g.cols m2 ∧
      ∀ x y, cellAt m2 x y =
        if x = (g.cols : Int) - 1 ∧ y = (g.rows : Int) - 1 then some 0 else cellAt m1 x y := by
  obtain ⟨m0, hw0, hinv0, hlt⟩ := carve_start hr hc
  obtain ⟨m1, hloop, hinv1⟩ := carveLoop_spec fuel ⟨m0, [⟨0, 0⟩], rnd⟩ hinv0
    (by simp only; omega)
  obtain ⟨m2, hw2, hg2, hcell⟩ := mazeWrite_of_grid hinv1.grid 0
    (x := (g.cols : Int) - 1) (y := (g.rows : Int) - 1)
    (by omega) (by omega) (by omega) (by omega)
  refine ⟨m1, m2, ?_, hinv1, hg2, hcell⟩
  simp only [generateMaze, initMaze, hw0, hloop, hw2]

/-- With the stack empty, the invariant makes every room of the lattice open. -/
theorem CarveInv.rooms_open {rows cols : Nat} {maze : Maze} (h : CarveInv rows cols maze [])
    (i j : Nat) (hi : 2 * i < cols) (hj : 2 * j < rows) :
    cellAt maze (2 * (i : Int)) (2 * (j : Int)) = some 0 := by
  have hstep : ∀ x y : Int, x % 2 = 0 → y % 2 = 0 → cellAt maze x y = some 0 →
      ∀ dir ∈ directions, InBounds rows cols (x + dir.x) (y + dir.y) →
        cellAt maze (x + dir.x) (y + dir.y) = some 0 := by
    intro x y hx hy ho
    rcases h.closed x y hx hy ho with hs | hs
    · exact absurd hs (List.not_mem_nil _)
    · exact hs
  have hrow : ∀ i : Nat, 2 * i < cols → cellAt maze (2 * (i : Int)) 0 = some 0 := by
    intro i
    induction i with
    | zero => intro _; simpa using h.origin
    | succ i ih =>
      intro hi
      have := hstep (2 * (i : Int)) 0 (by omega) (by omega) (ih (by omega)) ⟨2, 0⟩
        (by simp [directions]) (by unfold InBounds; simp only; omega)
      have e : 2 * ((i + 1 : Nat) : Int) = 2 * (i : Int) + 2 := by push_cast; ring
      simpa [e] using this
  induction j with
  | zero => simpa using hrow i hi
  | succ j ih =>
    have := hstep (2 * (i : Int)) (2 * (j : Int)) (by omega) (by omega) (ih (by omega)) ⟨0, 2⟩
      (by simp [directions]) (by unfold InBounds; simp only; omega)
    have e : 2 * ((j + 1 : Nat) : Int) = 2 * (j : Int) + 2 := by push_cast; ring
    simpa [e] using this

theorem Reachable.isOpen {maze : Maze} {x y : Int} (h : Reachable maze x y) :
    cellAt maze x y = some 0 := by
  cases h with
  | start h0 => exact h0
  | move _ _ hopen => exact hopen

theorem Reachable.last_step {maze : Maze} {x y : Int} (h : Reachable maze x y) :
    (x = 0 ∧ y = 0) ∨ ∃ x0 y0, Reachable maze x0 y0 ∧ Adjacent x0 y0 x y := by
  cases h with
  | start h0 => exact Or.inl ⟨rfl, rfl⟩
  | move hr hadj _ => exact Or.inr ⟨_, _, hr, hadj⟩

/-- Every open cell of the generated maze other than the exit cell is
reachable from the start cell: the cells opened by the carving loop are all
connected to `(0, 0)`. -/
theorem generateMaze_carved_cells_reachable (g : Game) (rnd : Nat → Nat) (fuel : Nat)
    (hr : 1 ≤ g.rows) (hc : 1 ≤ g.cols) (hf : 2 * g.rows * g.cols ≤ fuel) :
    ∃ g1, generateMaze fuel rnd g = .ok g1 ∧ ∀ x y : Int, cellAt g1.maze x y = some 0 →
      ¬ (x = (g.cols : Int) - 1 ∧ y = (g.rows : Int) - 1) → Reachable g1.maze x y := by
  obtain ⟨m1, m2, hgen, hinv, -, hcell⟩ := generateMaze_spec g rnd fuel hr hc hf
  have hmono : ∀ x y, cellAt m1 x y = some 0 → cellAt m2 x y = some 0 := by
    intro x y ho
    rw [hcell]
    split
    · rfl
    · exact ho
  refine ⟨_, hgen, ?_⟩
  intro x y ho hne
  change cellAt m2 x y = some 0 at ho
  rw [hcell, if_neg hne] at ho
  exact Reachable.mono hmono (hinv.reach x y ho)

/-! ## Claims about the generated maze -/

theorem CarveInv.room_open {rows cols : Nat} {maze : Maze} (h : CarveInv rows cols maze [])
    {x y : Int} (hb : InBounds rows cols x y) (hx : x % 2 = 0) (hy : y % 2 = 0) :
    cellAt maze x y = some 0 := by
  unfold InBounds at hb
  have := h.rooms_open (x.toNat / 2) (y.toNat / 2) (by omega) (by omega)
  have ex : 2 * ((x.toNat / 2 : Nat) : Int) = x := by omega
  have ey : 2 * ((y.toNat / 2 : Nat) : Int) = y := by omega
  rw [ex, ey] at this
  exact this

/-- C8: for every grid with at least one row and one column and every
sequence of random choices, `generateMaze` returns (given enough fuel for
the loop) a maze in which the start cell `(0,0)` is open and every room of
the carving lattice, that is every in-bounds cell with even `x` and even
`y`, is open. -/
theorem generateMaze_opens_every_room (g : Game) (rnd : Nat → Nat) (fuel : Nat)
    (hr : 1 ≤ g.rows) (hc : 1 ≤ g.cols) (hf : 2 * g.rows * g.cols ≤ fuel) :
    ∃ g1, generateMaze fuel rnd g = .ok g1 ∧ g1.player = ⟨0, 0⟩ ∧
      cellAt g1.maze 0 0 = some 0 ∧
      ∀ x y : Int, InBounds g.rows g.cols x y → x % 2 = 0 → y % 2 = 0 →
        cellAt g1.maze x y = some 0 := by
  obtain ⟨m1, m2, hgen, hinv, -, hcell⟩ := generateMaze_spec g rnd fuel hr hc hf
  have hmono : ∀ x y, cellAt m1 x y = some 0 → cellAt m2 x y = some 0 := by
    intro x y ho
    rw [hcell]
    split
    · rfl
    · exact ho
  refine ⟨_, hgen, rfl, hmono 0 0 hinv.origin, ?_⟩
  intro x y hb hx hy
  exact hmono x y (hinv.room_open hb hx hy)

theorem generateMaze_opens_every_room_witness :
    (1 ≤ (newGame 3 3).rows ∧ 1 ≤ (newGame 3 3).cols ∧
      2 * (newGame 3 3).rows * (newGame 3 3).cols ≤ 18) ∧
    ∃ g1, generateMaze 18 (fun _ => 0) (newGame 3 3) = .ok g1 ∧ g1.player = ⟨0, 0⟩ ∧
      cellAt g1.maze 0 0 = some 0 ∧
      ∀ x y : Int, InBounds (newGame 3 3).rows (newGame 3 3).cols x y → x % 2 = 0 →
        y % 2 = 0 → cellAt g1.maze x y = some 0 :=
  ⟨by decide, generateMaze_opens_every_room (newGame 3 3) (fun _ => 0) 18
    (by decide) (by decide) (by decide)⟩

/-- C9: for every grid with at least one row and one column and every
sequence of random choices, in the maze returned by `generateMaze` the exit
cell `(cols-1, rows-1)` is reachable from `(0,0)` through 4-adjacent open
cells if and only if `rows` is odd or `cols` is odd; when both are even,
every in-bounds 4-neighbour of the exit is a wall. -/
theorem generateMaze_exit_reachable_iff (g : Game) (rnd : Nat → Nat) (fuel : Nat)
    (hr : 1 ≤ g.rows) (hc : 1 ≤ g.cols) (hf : 2 * g.rows * g.cols ≤ fuel) :
    ∃ g1, generateMaze fuel rnd g = .ok g1 ∧
      g1.exit = ⟨(g.cols : Int) - 1, (g.rows : Int) - 1⟩ ∧
      (Reachable g1.maze g1.exit.x g1.exit.y ↔ (g.rows % 2 = 1 ∨ g.cols % 2 = 1)) ∧
      (g.rows % 2 = 0 → g.cols % 2 = 0 → ∀ x y : Int,
        Adjacent g1.exit.x g1.exit.y x y → InBounds g.rows g.cols x y →
          cellAt g1.maze x y = some 1) := by
  obtain ⟨m1, m2, hgen, hinv, hg2, hcell⟩ := generateMaze_spec g rnd fuel hr hc hf
  have hmono : ∀ x y, cellAt m1 x y = some 0 → cellAt m2 x y = some 0 := by
    intro x y ho
    rw [hcell]
    split
    · rfl
    · exact ho
  have hroom : ∀ x y : Int, InBounds g.rows g.cols x y → x % 2 = 0 → y % 2 = 0 →
      Reachable m2 x y := fun x y hb hx hy =>
    Reachable.mono hmono (hinv.reach x y (hinv.room_open hb hx hy))
  have hexit : cellAt m2 ((g.cols : Int) - 1) ((g.rows : Int) - 1) = some 0 := by
    rw [hcell]; simp
  -- around an exit with two odd coordinates nothing was carved
  have hwall : g.rows % 2 = 0 → g.cols % 2 = 0 → ∀ x y : Int,
      Adjacent ((g.cols : Int) - 1) ((g.rows : Int) - 1) x y →
        cellAt m2 x y ≠ some 0 := by
    intro hre hce x y hadj ho
    have hne : ¬ (x = (g.cols : Int) - 1 ∧ y = (g.rows : Int) - 1) := by
      unfold Adjacent at hadj; omega
    rw [hcell, if_neg hne] at ho
    have hb := cellAt_inBounds_of_some hinv.grid ho
    have hl := hinv.lattice x y ho
    unfold Adjacent at hadj
    omega
  refine ⟨_, hgen, rfl, ?_⟩
  change (Reachable m2 ((g.cols : Int) - 1) ((g.rows : Int) - 1) ↔ _) ∧
    (_ → _ → ∀ x y : Int, Adjacent ((g.cols : Int) - 1) ((g.rows : Int) - 1) x y → _ →
      cellAt m2 x y = some 1)
  refine ⟨⟨?_, ?_⟩, ?_⟩
  · intro hreach
    by_contra hpar
    have hre : g.rows % 2 = 0 := by omega
    have hce : g.cols % 2 = 0 := by omega
    rcases Reachable.last_step hreach with h0 | ⟨x0, y0, hr0, hadj⟩
    · omega
    · have hadj1 : Adjacent ((g.cols : Int) - 1) ((g.rows : Int) - 1) x0 y0 := by
        unfold Adjacent at hadj ⊢; omega
      exact hwall hre hce x0 y0 hadj1 hr0.isOpen
  · intro hpar
    by_cases hce : g.cols % 2 = 1
    · by_cases hre : g.rows % 2 = 1
      · exact hroom _ _ (by unfold InBounds; omega) (by omega) (by omega)
      · have h1 := hroom ((g.cols : Int) - 1) ((g.rows : Int) - 1 - 1)
          (by unfold InBounds; omega) (by omega) (by omega)
        exact Reachable.move h1 (by unfold Adjacent; omega) hexit
    · have hre : g.rows % 2 = 1 := by omega
      have h1 := hroom ((g.cols : Int) - 1 - 1) ((g.rows : Int) - 1)
        (by unfold InBounds; omega) (by omega) (by omega)
      exact Reachable.move h1 (by unfold Adjacent; omega) hexit
  · intro hre hce x y hadj hb
    have hno := hwall hre hce x y hadj
    unfold InBounds at hb
    obtain ⟨v, hv⟩ := cellAt_some_of_inBounds hg2 hb.1 hb.2.1 hb.2.2.1 hb.2.2.2
    have hne : ¬ (x = (g.cols : Int) - 1 ∧ y = (g.rows : Int) - 1) := by
      unfold Adjacent at hadj; omega
    have hv1 := hv
    rw [hcell, if_neg hne] at hv1
    rcases hinv.bits x y v hv1 with h0 | h1
    · rw [h0] at hv; exact absurd hv hno
    · rw [hv, h1]

theorem generateMaze_exit_reachable_iff_witness :
    (1 ≤ (newGame 3 3).rows ∧ 1 ≤ (newGame 3 3).cols ∧
      2 * (newGame 3 3).rows * (newGame 3 3).cols ≤ 18) ∧
    ∃ g1, generateMaze 18 (fun _ => 0) (newGame 3 3) = .ok g1 ∧
      g1.exit = ⟨((newGame 3 3).cols : Int) - 1, ((newGame 3 3).rows : Int) - 1⟩ ∧
      (Reachable g1.maze g1.exit.x g1.exit.y ↔
        ((newGame 3 3).rows % 2 = 1 ∨ (newGame 3 3).cols % 2 = 1)) ∧
      ((newGame 3 3).rows % 2 = 0 → (newGame 3 3).cols % 2 = 0 → ∀ x y : Int,
        Adjacent g1.exit.x g1.exit.y x y →
          InBounds (newGame 3 3).rows (newGame 3 3).cols x y →
          cellAt g1.maze x y = some 1) :=
  ⟨by decide, generateMaze_exit_reachable_iff (newGame 3 3) (fun _ => 0) 18
    (by decide) (by decide) (by decide)⟩

/-- C10: for every grid with at least one row and one column and every
infinite sequence of random choices, the carving loop of `generateMaze`
terminates: started in the state set up by `generateMaze`, it returns a grid
within `2 * rows * cols` iterations; and each iteration on a stack whose top
is an in-bounds room either pops the stack and leaves the grid alone, or
pushes an in-bounds room that was a wall and is now open, so that the measure
`2 * (number of walls) + (stack length)` strictly decreases. -/
theorem carveLoop_terminates (rows cols : Nat) (rnd : Nat → Nat) (hr : 1 ≤ rows)
    (hc : 1 ≤ cols) :
    (∃ m0, mazeWrite (List.replicate rows (List.replicate cols 1)) 0 0 0 = .ok m0 ∧
      ∀ fuel, 2 * rows * cols ≤ fuel →
        ∃ m, carveLoop rows cols fuel ⟨m0, [⟨0, 0⟩], rnd⟩ = .ok m) ∧
    (∀ (maze : Maze) (current : Cell) (rest : List Cell) (r : Nat → Nat),
      IsGrid rows cols maze → InBounds rows cols current.x current.y →
      current.x % 2 = 0 → current.y % 2 = 0 →
      ∃ s1, carveStep rows cols maze current rest r = .ok s1 ∧
        carveMeasure rows cols s1.maze s1.stack <
          carveMeasure rows cols maze (current :: rest) ∧
        ((s1.maze = maze ∧ s1.stack = rest) ∨
          ∃ next : Cell, s1.stack = next :: current :: rest ∧
            InBounds rows cols next.x next.y ∧ next.x % 2 = 0 ∧ next.y % 2 = 0 ∧
            cellAt maze next.x next.y = some 1 ∧ cellAt s1.maze next.x next.y = some 0)) := by
  constructor
  · obtain ⟨m0, hw0, hinv0, hlt⟩ := carve_start hr hc
    refine ⟨m0, hw0, ?_⟩
    intro fuel hf
    obtain ⟨m, hm, -⟩ := carveLoop_spec fuel ⟨m0, [⟨0, 0⟩], rnd⟩ hinv0 (by simp only; omega)
    exact ⟨m, hm⟩
  · intro maze current rest r hg hcb hx hy
    rcases carveStep_eval hg hcb rest r with
      ⟨-, hs⟩ | ⟨dir, hdir, hwall, maze2, hs, -, hcell⟩
    · refine ⟨_, hs, ?_, Or.inl ⟨rfl, rfl⟩⟩
      simp [carveMeasure]
    · refine ⟨_, hs, ?_, Or.inr ⟨_, rfl, hwall.1, ?_, ?_, hwall.2, ?_⟩⟩
      · have := wallCells_card_lt hwall.1 hwall.2 hcell
        simp only [carveMeasure, List.length_cons]
        omega
      · have := directions_shape hdir
        simp only; omega
      · have := directions_shape hdir
        simp only; omega
      · simp only
        rw [hcell]; simp

theorem carveLoop_terminates_witness :
    (1 ≤ 3 ∧ 1 ≤ 3) ∧
    (∃ m0, mazeWrite (List.replicate 3 (List.replicate 3 1)) 0 0 0 = .ok m0 ∧
      ∀ fuel, 2 * 3 * 3 ≤ fuel →
        ∃ m, carveLoop 3 3 fuel ⟨m0, [⟨0, 0⟩], fun k => k⟩ = .ok m) ∧
    (∀ (maze : Maze) (current : Cell) (rest : List Cell) (r : Nat → Nat),
      IsGrid 3 3 maze → InBounds 3 3 current.x current.y →
      current.x % 2 = 0 → current.y % 2 = 0 →
      ∃ s1, carveStep 3 3 maze current rest r = .ok s1 ∧
        carveMeasure 3 3 s1.maze s1.stack < carveMeasure 3 3 maze (current :: rest) ∧
        ((s1.maze = maze ∧ s1.stack = rest) ∨
          ∃ next : Cell, s1.stack = next :: current :: rest ∧
            InBounds 3 3 next.x next.y ∧ next.x % 2 = 0 ∧ next.y % 2 = 0 ∧
            cellAt maze next.x next.y = some 1 ∧ cellAt s1.maze next.x next.y = some 0)) :=
  ⟨by decide, carveLoop_terminates 3 3 (fun k => k) (by decide) (by decide)⟩

/-- C1 at a grid of two rows and two columns: whatever the random choices,
`generateMaze` returns the grid `[[0, 1], [1, 0]]`, in which the exit cell
`(1, 1)` is open and cannot be reached from the start cell `(0, 0)`. -/
theorem generateMaze_two_by_two_exit_cut_off (rnd : Nat → Nat) :
    ∃ g1, generateMaze 8 rnd (newGame 2 2) = .ok g1 ∧ g1.maze = [[0, 1], [1, 0]] ∧
      g1.exit = ⟨1, 1⟩ ∧ cellAt g1.maze g1.exit.x g1.exit.y = some 0 ∧
      ¬ Reachable g1.maze g1.exit.x g1.exit.y := by
  refine ⟨{ initMaze (newGame 2 2) with maze := [[0, 1], [1, 0]] }, rfl, rfl, rfl, rfl, ?_⟩
  intro h
  rcases Reachable.last_step h with h0 | ⟨x0, y0, hr0, hadj⟩
  · exact absurd h0.1 (by decide)
  · have ho := hr0.isOpen
    change cellAt [[0, 1], [1, 0]] x0 y0 = some 0 at ho
    change Adjacent x0 y0 1 1 at hadj
    unfold Adjacent at hadj
    have hcases : (x0 = 1 ∧ y0 = 0) ∨ (x0 = 1 ∧ y0 = 2) ∨ (x0 = 0 ∧ y0 = 1) ∨
        (x0 = 2 ∧ y0 = 1) := by omega
    rcases hcases with ⟨hx, hy⟩ | ⟨hx, hy⟩ | ⟨hx, hy⟩ | ⟨hx, hy⟩ <;>
      · subst hx; subst hy
        revert ho
        decide

/-! ## The move and answer handlers -/

theorem forEach_ok {α : Type} (body : α → Except Fault Unit) (l : List α)
    (h : ∀ a ∈ l, body a = .ok ()) : forEach body l = .ok () := by
  induction l with
  | nil => rfl
  | cons a rest ih =>
    unfold forEach
    rw [h a (List.mem_cons_self _ _)]
    exact ih (fun b hb => h b (List.mem_cons_of_mem _ hb))

/-- On a grid of `rows` by `cols` cells the redraw reads only existing rows
and does not throw. -/
theorem update_of_grid (g : Game) (hg : IsGrid g.rows g.cols g.maze) : update g = .ok () := by
  have hdraw : drawMaze g = .ok () := by
    unfold drawMaze
    apply forEach_ok
    intro y hy
    apply forEach_ok
    intro x _
    rw [List.mem_range] at hy
    rw [mazeRead_of_grid hg _ (by omega) (by omega)]
  have hhint : unlockMovement g = .ok () := by
    unfold unlockMovement
    apply forEach_ok
    intro dir _
    simp only
    split
    · rename_i hb
      rw [mazeRead_of_grid hg _ hb.2.2.1 hb.2.2.2]
    · rfl
  unfold update
  rw [hdraw]
  simp only [hhint]
  split
  · rfl
  · split <;> rfl

theorem movePlayer_eval (g : Game) (hg : IsGrid g.rows g.cols g.maze) (dx dy : Int)
    (w : Word) :
    movePlayer dx dy w g = .ok (if CanStep g dx dy then moved dx dy w g else g) := by
  by_cases hc : CanStep g dx dy
  · rw [if_pos hc]
    obtain ⟨ha, hm, hb, ho⟩ := hc
    have h1 : (!g.isGameActive || !g.canMove) = false := by rw [ha, hm]; rfl
    have hb1 := hb
    unfold InBounds at hb1
    have hb2 : g.player.x + dx ≥ 0 ∧ g.player.x + dx < g.cols ∧ g.player.y + dy ≥ 0 ∧
        g.player.y + dy < g.rows := hb1
    have hu : update { g with player := ⟨g.player.x + dx, g.player.y + dy⟩ } = .ok () :=
      update_of_grid _ hg
    unfold movePlayer
    rw [h1]
    simp only [Bool.false_eq_true, if_false, if_pos hb2]
    rw [mazeRead_of_grid hg _ hb1.2.2.1 hb1.2.2.2]
    simp only [ho, if_true, hu, moved]
    split <;> rfl
  · rw [if_neg hc]
    unfold movePlayer
    by_cases h1 : (!g.isGameActive || !g.canMove) = true
    · rw [if_pos h1]
    · rw [if_neg h1]
      have ha : g.isGameActive = true := by
        cases h : g.isGameActive
        · rw [h] at h1; simp at h1
        · rfl
      have hm : g.canMove = true := by
        cases h : g.canMove
        · rw [h] at h1; simp at h1
        · rfl
      by_cases hb : g.player.x + dx ≥ 0 ∧ g.player.x + dx < g.cols ∧ g.player.y + dy ≥ 0 ∧
          g.player.y + dy < g.rows
      · simp only [if_pos hb]
        rw [mazeRead_of_grid hg _ hb.2.2.1 hb.2.2.2]
        have ho : ¬ cellAt g.maze (g.player.x + dx) (g.player.y + dy) = some 0 :=
          fun ho => hc ⟨ha, hm, hb, ho⟩
        simp only [if_neg ho]
      · simp only [if_neg hb]

theorem trapPicks_length (rows cols n : Nat) (rnd : Nat → Nat) :
    (trapPicks rows cols n rnd).length = n := by
  induction n generalizing rnd with
  | zero => rfl
  | succ n ih => simp [trapPicks, ih]

theorem trapLoop_spec {rows cols : Nat} (hr : 1 ≤ rows) (n : Nat) :
    ∀ (rnd : Nat → Nat) (maze : Maze), IsGrid rows cols maze →
      ∃ maze1, trapLoop rows cols n rnd maze = .ok maze1 ∧ IsGrid rows cols maze1 ∧
        ∀ x y, cellAt maze1 x y =
          if (x, y) ∈ trapPicks rows cols n rnd ∧ cellAt maze x y = some 0 then some 1
          else cellAt maze x y := by
  induction n with
  | zero =>
    intro rnd maze hg
    exact ⟨maze, rfl, hg, by simp [trapPicks]⟩
  | succ n ih =>
    intro rnd maze hg
    have hy : ((randIndex (rnd 1) rows : Nat) : Int) < rows := by
      have := randIndex_lt (rnd 1) rows (by omega)
      omega
    unfold trapLoop
    simp only
    rw [mazeRead_of_grid hg _ (by omega) hy]
    by_cases ho : cellAt maze (randIndex (rnd 0) cols : Int) (randIndex (rnd 1) rows : Int) = some 0
    · have hb := cellAt_inBounds_of_some hg ho
      obtain ⟨m1, hw, hg1, hc1⟩ := mazeWrite_of_grid hg 1 hb.1 hb.2.1 hb.2.2.1 hb.2.2.2
      obtain ⟨m2, hl, hg2, hc2⟩ := ih (fun k => rnd (k + 2)) m1 hg1
      refine ⟨m2, ?_, hg2, ?_⟩
      · simp only [ho, if_true, hw, hl]
      · intro x y
        rw [hc2, hc1]
        simp only [trapPicks, List.mem_cons, Prod.mk.injEq]
        by_cases hxy : x = (randIndex (rnd 0) cols : Int) ∧ y = (randIndex (rnd 1) rows : Int)
        · rw [hxy.1, hxy.2]
          simp [ho]
        · simp [hxy]
    · obtain ⟨m2, hl, hg2, hc2⟩ := ih (fun k => rnd (k + 2)) maze hg
      refine ⟨m2, ?_, hg2, ?_⟩
      · simp only [ho, if_false, hl]
      · intro x y
        rw [hc2]
        simp only [trapPicks, List.mem_cons, Prod.mk.injEq]
        by_cases hxy : x = (randIndex (rnd 0) cols : Int) ∧ y = (randIndex (rnd 1) rows : Int)
        · rw [hxy.1, hxy.2]
          simp [ho]
        · simp [hxy]

/-! ## Claims about single handlers -/

/-- C2: on a session whose maze is a `rows` by `cols` grid, `movePlayer`
moves the player to `(x+dx, y+dy)` when the game is active, `canMove` is
true and the destination is inside the grid and open; in every other case
it raises no error and returns the session state unchanged. -/
theorem movePlayer_moves_iff_allowed (g : Game) (dx dy : Int) (w : Word)
    (hg : IsGrid g.rows g.cols g.maze) :
    (CanStep g dx dy → ∃ g1, movePlayer dx dy w g = .ok g1 ∧
      g1.player = ⟨g.player.x + dx, g.player.y + dy⟩ ∧ g1.maze = g.maze) ∧
    (¬ CanStep g dx dy → movePlayer dx dy w g = .ok g) := by
  rw [movePlayer_eval g hg dx dy w]
  constructor
  · intro hc
    rw [if_pos hc]
    refine ⟨_, rfl, ?_, ?_⟩ <;>
      · unfold moved
        simp only
        split <;> rfl
  · intro hc
    rw [if_neg hc]

theorem movePlayer_moves_iff_allowed_witness :
    IsGrid unlockedGame.rows unlockedGame.cols unlockedGame.maze ∧
    ((CanStep unlockedGame 1 0 → ∃ g1, movePlayer 1 0 ⟨"gou", "dog"⟩ unlockedGame = .ok g1 ∧
      g1.player = ⟨unlockedGame.player.x + 1, unlockedGame.player.y + 0⟩ ∧
      g1.maze = unlockedGame.maze) ∧
    (¬ CanStep unlockedGame 1 0 →
      movePlayer 1 0 ⟨"gou", "dog"⟩ unlockedGame = .ok unlockedGame)) :=
  ⟨by decide, movePlayer_moves_iff_allowed unlockedGame 1 0 ⟨"gou", "dog"⟩ (by decide)⟩

/-- C6: on an active session with `timeLeft ≥ 0`, `updateTimer` changes
`timeLeft` by `0` or by `-1`; it decrements, and stores the clock reading in
`lastTimerUpdate`, exactly when `timeLeft > 0` and at least 1000 ms have
passed since `lastTimerUpdate`; `timeLeft` stays non-negative; called with
`timeLeft = 0` it runs `gameOver` (the game becomes inactive and the
interval handle is cleared).  On an inactive session it changes nothing. -/
theorem updateTimer_spec (g : Game) (now now' : Int) :
    (g.isGameActive = true → 0 ≤ g.timeLeft →
      ((updateTimer now now' g).timeLeft = g.timeLeft ∨
        (updateTimer now now' g).timeLeft = g.timeLeft - 1) ∧
      (0 < g.timeLeft ∧ 1000 ≤ now - g.lastTimerUpdate →
        updateTimer now now' g =
          { g with timeLeft := g.timeLeft - 1, lastTimerUpdate := now' }) ∧
      (¬ (0 < g.timeLeft ∧ 1000 ≤ now - g.lastTimerUpdate) →
        (updateTimer now now' g).timeLeft = g.timeLeft ∧
        (updateTimer now now' g).lastTimerUpdate = g.lastTimerUpdate) ∧
      0 ≤ (updateTimer now now' g).timeLeft ∧
      (g.timeLeft = 0 → updateTimer now now' g = gameOver g ∧
        (updateTimer now now' g).isGameActive = false ∧
        (updateTimer now now' g).gameLoop = none)) ∧
    (g.isGameActive = false → updateTimer now now' g = g) := by
  constructor
  · intro ha ht
    have h1 : (!g.isGameActive) = false := by rw [ha]; rfl
    by_cases h0 : g.timeLeft ≤ 0
    · have hu : updateTimer now now' g = gameOver g := by
        unfold updateTimer
        rw [h1]
        simp only [Bool.false_eq_true, if_false, if_pos h0]
      rw [hu]
      refine ⟨Or.inl rfl, ?_, ?_, ht, ?_⟩
      · intro h; omega
      · intro _; exact ⟨rfl, rfl⟩
      · intro _; exact ⟨rfl, rfl, rfl⟩
    · by_cases h2 : now - g.lastTimerUpdate ≥ 1000
      · have hu : updateTimer now now' g =
            { g with timeLeft := g.timeLeft - 1, lastTimerUpdate := now' } := by
          unfold updateTimer
          rw [h1]
          simp only [Bool.false_eq_true, if_false, if_neg h0, if_pos h2]
        rw [hu]
        refine ⟨Or.inr rfl, fun _ => rfl, ?_, ?_, ?_⟩
        · intro h; exact absurd ⟨by omega, h2⟩ h
        · simp only; omega
        · intro h; omega
      · have hu : updateTimer now now' g = g := by
          unfold updateTimer
          rw [h1]
          simp only [Bool.false_eq_true, if_false, if_neg h0, if_neg h2]
        rw [hu]
        refine ⟨Or.inl rfl, ?_, fun _ => ⟨rfl, rfl⟩, ht, ?_⟩
        · intro h; exact absurd h.2 h2
        · intro h; omega
  · intro ha
    unfold updateTimer
    rw [ha]
    rfl

/-- C7: on a session with a current challenge and a `rows` by `cols` maze
that has at least one row, `checkAnswer` with an input whose normalised form
differs from the answer returns, for every outcome of the trap draws, a
state that differs from the prior state in the maze only; the new maze has
the same dimensions and differs from the old one in at most 3 cells, each
of which was open and is now a wall.  (On a grid without rows the first read
of the trap throws, with the state unchanged.) -/
theorem checkAnswer_wrong_frame (norm : String → String) (raw : String) (rnd : Nat → Nat)
    (g : Game) (word : Word) (hg : IsGrid g.rows g.cols g.maze)
    (hw : g.currentWord = some word) (hne : norm raw ≠ word.english) :
    (1 ≤ g.rows → ∃ g1, checkAnswer norm raw rnd g = .ok g1 ∧
      g1 = { g with maze := g1.maze } ∧ IsGrid g.rows g.cols g1.maze ∧
      ∃ S : Finset (Int × Int), S.card ≤ 3 ∧ ∀ x y,
        cellAt g1.maze x y ≠ cellAt g.maze x y →
          (x, y) ∈ S ∧ cellAt g.maze x y = some 0 ∧ cellAt g1.maze x y = some 1) ∧
    (g.rows = 0 → checkAnswer norm raw rnd g = .error (.typeError, g)) := by
  constructor
  · intro hr
    obtain ⟨m1, hl, hg1, hc⟩ := trapLoop_spec hr 3 rnd g.maze hg
    refine ⟨{ g with maze := m1 }, ?_, rfl, hg1, (trapPicks g.rows g.cols 3 rnd).toFinset, ?_, ?_⟩
    · simp only [checkAnswer, hw, if_neg hne, triggerTrap, hl]
    · calc (trapPicks g.rows g.cols 3 rnd).toFinset.card
          ≤ (trapPicks g.rows g.cols 3 rnd).length := List.toFinset_card_le _
        _ = 3 := trapPicks_length _ _ _ _
    · intro x y hd
      simp only at hd ⊢
      rw [hc] at hd ⊢
      by_cases hp : (x, y) ∈ trapPicks g.rows g.cols 3 rnd ∧ cellAt g.maze x y = some 0
      · rw [if_pos hp]
        exact ⟨List.mem_toFinset.2 hp.1, hp.2, rfl⟩
      · rw [if_neg hp] at hd
        exact absurd rfl hd
  · intro hr
    cases g with
    | mk rows cols maze player ex cw score tl gl act cm ltu ps =>
      simp only at hw hr hg
      subst hw
      subst hr
      have hnil : maze = [] := List.length_eq_zero.1 hg.1
      subst hnil
      simp only [checkAnswer, if_neg hne, triggerTrap]
      rfl

theorem checkAnswer_wrong_frame_witness :
    (IsGrid unlockedGame.rows unlockedGame.cols unlockedGame.maze ∧
      unlockedGame.currentWord = some ⟨"mao", "cat"⟩ ∧
      (fun s : String => s) "dog" ≠ (⟨"mao", "cat"⟩ : Word).english) ∧
    ((1 ≤ unlockedGame.rows →
      ∃ g1, checkAnswer (fun s => s) "dog" (fun k => k) unlockedGame = .ok g1 ∧
      g1 = { unlockedGame with maze := g1.maze } ∧
      IsGrid unlockedGame.rows unlockedGame.cols g1.maze ∧
      ∃ S : Finset (Int × Int), S.card ≤ 3 ∧ ∀ x y,
        cellAt g1.maze x y ≠ cellAt unlockedGame.maze x y →
          (x, y) ∈ S ∧ cellAt unlockedGame.maze x y = some 0 ∧ cellAt g1.maze x y = some 1) ∧
    (unlockedGame.rows = 0 →
      checkAnswer (fun s => s) "dog" (fun k => k) unlockedGame =
        .error (.typeError, unlockedGame))) :=
  ⟨by decide, checkAnswer_wrong_frame (fun s => s) "dog" (fun k => k) unlockedGame
    ⟨"mao", "cat"⟩ (by decide) rfl (by decide)⟩

/-! ## Runs of a session -/

theorem checkAnswer_of_correct (norm : String → String) (raw : String) (rnd : Nat → Nat)
    (g : Game) (hg : IsGrid g.rows g.cols g.maze) (h : IsCorrect norm g raw) :
    checkAnswer norm raw rnd g =
      .ok { g with score := g.score + 10, canMove := true, promptShown := false } := by
  have hu : update { g with score := g.score + 10, canMove := true, promptShown := false } =
      .ok () := update_of_grid _ hg
  cases g with
  | mk rows cols maze player ex cw score tl gl act cm ltu ps =>
    unfold IsCorrect at h
    cases cw with
    | none => exact absurd h id
    | some word =>
      simp only at h hu
      simp only [checkAnswer, if_pos h, hu]

theorem checkAnswer_of_wrong (norm : String → String) (raw : String) (rnd : Nat → Nat)
    (g : Game) (hs : Sound g) (h : ¬ IsCorrect norm g raw) :
    ∃ m1, checkAnswer norm raw rnd g = .ok { g with maze := m1 } ∧
      IsGrid g.rows g.cols m1 ∧
      ∀ x y, cellAt m1 x y =
        if (x, y) ∈ trapPicks g.rows g.cols 3 rnd ∧ cellAt g.maze x y = some 0 then some 1
        else cellAt g.maze x y := by
  obtain ⟨hg, hr, word, hw⟩ := hs
  obtain ⟨m1, hl, hg1, hc⟩ := trapLoop_spec hr 3 rnd g.maze hg
  refine ⟨m1, ?_, hg1, hc⟩
  cases g with
  | mk rows cols maze player ex cw score tl gl act cm ltu ps =>
    simp only at hw hl
    subst hw
    have hne : ¬ norm raw = word.english := h
    simp only [checkAnswer, if_neg hne, triggerTrap, hl]

/-- Every handler returns a state on a sound session, and the state stays
sound; the flags and the score change as the label of the event says. -/
theorem step_spec (norm : String → String) (g : Game) (e : Event) (hs : Sound g)
    (hnr : e.isResize = false) :
    ∃ g1, step norm g e = .ok g1 ∧ Sound g1 ∧
      g1.score = g.score + scoreDelta norm g e ∧
      (label norm g e = .correct → g1.canMove = true) ∧
      (label norm g e = .moved → g1.canMove = false) ∧
      (label norm g e ≠ .correct → label norm g e ≠ .moved → g1.canMove = g.canMove) ∧
      (g1.isGameActive = true → g.isGameActive = true) ∧
      (∀ dx dy w, e = .move dx dy w → Wins g dx dy → g1.isGameActive = false) := by
  cases e with
  | answer raw rnd =>
    by_cases hc : IsCorrect norm g raw
    · refine ⟨_, checkAnswer_of_correct norm raw rnd g hs.1 hc, ?_, ?_, ?_, ?_, ?_, ?_, ?_⟩
      · exact hs
      · simp [scoreDelta, hc]
      · intro _; rfl
      · simp [label, hc]
      · simp [label, hc]
      · exact id
      · intro dx dy w h; cases h
    · obtain ⟨m1, hch, hg1, -⟩ := checkAnswer_of_wrong norm raw rnd g hs hc
      refine ⟨_, hch, ⟨hg1, hs.2.1, hs.2.2⟩, ?_, ?_, ?_, ?_, ?_, ?_⟩
      · simp [scoreDelta, hc]
      · simp [label, hc]
      · simp [label, hc]
      · intro _ _; rfl
      · exact id
      · intro dx dy w h; cases h
  | move dx dy w =>
    refine ⟨_, movePlayer_eval g hs.1 dx dy w, ?_⟩
    by_cases hc : CanStep g dx dy
    · rw [if_pos hc]
      by_cases hx : g.player.x + dx = g.exit.x ∧ g.player.y + dy = g.exit.y
      · have hm : moved dx dy w g = gameWon
            { g with player := ⟨g.player.x + dx, g.player.y + dy⟩, canMove := false } := by
          unfold moved
          simp only [if_pos hx]
        have hwin : Wins g dx dy := ⟨hc, hx⟩
        rw [hm]
        refine ⟨hs, ?_, ?_, ?_, ?_, ?_, ?_⟩
        · simp [scoreDelta, hwin, gameWon]
        · simp [label, hc]
        · intro _; rfl
        · simp [label, hc]
        · intro h; cases h
        · intro _ _ _ _ _; rfl
      · have hm : moved dx dy w g = showWordPrompt w
            { g with player := ⟨g.player.x + dx, g.player.y + dy⟩, canMove := false } := by
          unfold moved
          simp only [if_neg hx]
        have hwin : ¬ Wins g dx dy := fun h => hx h.2
        rw [hm]
        refine ⟨⟨hs.1, hs.2.1, w, rfl⟩, ?_, ?_, ?_, ?_, ?_, ?_⟩
        · simp [scoreDelta, hwin, showWordPrompt]
        · simp [label, hc]
        · intro _; rfl
        · simp [label, hc]
        · exact id
        · intro dx1 dy1 w1 he hw1
          cases he
          exact absurd hw1 hwin
    · rw [if_neg hc]
      have hwin : ¬ Wins g dx dy := fun h => hc h.1
      refine ⟨hs, ?_, ?_, ?_, ?_, ?_, ?_⟩
      · simp [scoreDelta, hwin]
      · simp [label, hc]
      · simp [label, hc]
      · intro _ _; rfl
      · exact id
      · intro dx1 dy1 w1 he hw1
        cases he
        exact absurd hw1 hwin
  | resize cw ch => cases hnr
  | tick now now1 =>
    have ht : step norm g (.tick now now1) = .ok (updateTimer now now1 g) := by
      simp only [step, tick, update_of_grid g hs.1]
    refine ⟨_, ht, ?_, ?_, ?_, ?_, ?_, ?_, ?_⟩
    · unfold updateTimer
      split
      · exact hs
      · split
        · exact hs
        · split <;> exact hs
    · unfold updateTimer
      simp only [scoreDelta, add_zero]
      split
      · rfl
      · split
        · rfl
        · split <;> rfl
    · simp [label]
    · simp [label]
    · intro _ _
      unfold updateTimer
      split
      · rfl
      · split
        · rfl
        · split <;> rfl
    · unfold updateTimer
      split
      · exact id
      · split
        · intro h; cases h
        · split <;> exact id
    · intro dx dy w h; cases h

theorem startGame_spec (g : Game) (fuel : Nat) (now : Int) (rnd : Nat → Nat) (w : Word)
    (handle : Nat) (hr : 1 ≤ g.rows) (hc : 1 ≤ g.cols) (hf : 2 * g.rows * g.cols ≤ fuel) :
    ∃ g0, startGame fuel now rnd w handle g = .ok g0 ∧ Sound g0 ∧ g0.canMove = false ∧
      g0.score = 0 ∧ g0.timeLeft = 180 ∧ g0.isGameActive = true ∧
      cellAt g0.maze g0.player.x g0.player.y = some 0 ∧
      cellAt g0.maze g0.exit.x g0.exit.y = some 0 := by
  obtain ⟨m1, m2, hgen, hinv, hg2, hcell⟩ := generateMaze_spec
    { g with isGameActive := true, canMove := false, score := 0, timeLeft := 180,
             lastTimerUpdate := now } rnd fuel hr hc hf
  have hg2' : IsGrid g.rows g.cols m2 := hg2
  have hcell' : ∀ x y, cellAt m2 x y =
      if x = (g.cols : Int) - 1 ∧ y = (g.rows : Int) - 1 then some 0 else cellAt m1 x y := hcell
  have horigin : cellAt m1 0 0 = some 0 := hinv.origin
  have hstart : startGame fuel now rnd w handle g = .ok
      { rows := g.rows, cols := g.cols, maze := m2, player := ⟨0, 0⟩,
        exit := ⟨(g.cols : Int) - 1, (g.rows : Int) - 1⟩, currentWord := some w, score := 0,
        timeLeft := 180, gameLoop := some handle, isGameActive := true, canMove := false,
        lastTimerUpdate := now, promptShown := true } := by
    simp only [startGame, hgen]
    rfl
  refine ⟨_, hstart, ?_, rfl, rfl, rfl, rfl, ?_, ?_⟩
  · exact ⟨hg2', hr, w, rfl⟩
  · change cellAt m2 0 0 = some 0
    rw [hcell']
    split
    · rfl
    · exact horigin
  · change cellAt m2 ((g.cols : Int) - 1) ((g.rows : Int) - 1) = some 0
    rw [hcell']
    simp

theorem label_moved_canMove {norm : String → String} {g : Game} {e : Event}
    (h : label norm g e = .moved) : g.canMove = true := by
  cases e with
  | answer raw rnd =>
    by_cases hc : IsCorrect norm g raw
    · simp [label, hc] at h
    · simp [label, hc] at h
  | move dx dy w =>
    by_cases hc : CanStep g dx dy
    · exact hc.2.1
    · simp [label, hc] at h
  | tick now now1 => simp [label] at h
  | resize cw ch => simp [label] at h

theorem run_cons {norm : String → String} {g g1 : Game} {e : Event} (es : List Event)
    (h : step norm g e = .ok g1) : run norm g (e :: es) = run norm g1 es := by
  simp only [run, h]

theorem trace_cons {norm : String → String} {g g1 : Game} {e : Event} (es : List Event)
    (h : step norm g e = .ok g1) :
    trace norm g (e :: es) = label norm g e :: trace norm g1 es := by
  simp only [trace, h, settle]

/-- The lock discipline along a run from a sound state. -/
theorem run_lock (norm : String → String) (evs : List Event)
    (hnr : ∀ e ∈ evs, e.isResize = false) :
    ∀ g, Sound g → ∃ g1, run norm g evs = .ok g1 ∧ Sound g1 ∧
      (g1.canMove = true →
        (g.canMove = true ∧ Label.correct ∉ trace norm g evs ∧
          Label.moved ∉ trace norm g evs) ∨
        ∃ l1 l2, trace norm g evs = l1 ++ Label.correct :: l2 ∧ Label.moved ∉ l2) ∧
      (g.canMove = false → ∀ l2 l3, trace norm g evs = l2 ++ Label.moved :: l3 →
        Label.correct ∈ l2) ∧
      (∀ l1 l2 l3, trace norm g evs = l1 ++ Label.moved :: (l2 ++ Label.moved :: l3) →
        Label.correct ∈ l2) := by
  induction evs with
  | nil =>
    intro g hs
    refine ⟨g, rfl, hs, ?_, ?_, ?_⟩
    · intro h; left; exact ⟨h, by simp [trace], by simp [trace]⟩
    · intro _ l2 l3 h; simp [trace] at h
    · intro l1 l2 l3 h; simp [trace] at h
  | cons e es ih =>
    intro g hs
    obtain ⟨g', hstep, hs', -, hcor, hmov, hoth, -, -⟩ :=
      step_spec norm g e hs (hnr e (List.mem_cons_self _ _))
    obtain ⟨g1, hrun, hs1, h1, h2, h3⟩ :=
      ih (fun e1 h1 => hnr e1 (List.mem_cons_of_mem _ h1)) g' hs'
    rw [run_cons es hstep, trace_cons es hstep]
    refine ⟨g1, hrun, hs1, ?_, ?_, ?_⟩
    · intro hcm
      rcases h1 hcm with ⟨hc', hnc, hnm⟩ | ⟨l1, l2, ht, hnm⟩
      · by_cases ha : label norm g e = .correct
        · right
          exact ⟨[], trace norm g' es, by rw [ha]; rfl, hnm⟩
        · by_cases hb : label norm g e = .moved
          · rw [hmov hb] at hc'; cases hc'
          · left
            refine ⟨by rw [← hoth ha hb]; exact hc', ?_, ?_⟩
            · intro hm
              rcases List.mem_cons.1 hm with h | h
              · exact ha h.symm
              · exact hnc h
            · intro hm
              rcases List.mem_cons.1 hm with h | h
              · exact hb h.symm
              · exact hnm h
      · right
        exact ⟨label norm g e :: l1, l2, by rw [ht]; rfl, hnm⟩
    · intro hcm l2 l3 ht
      cases l2 with
      | nil =>
        simp only [List.nil_append, List.cons.injEq] at ht
        have := label_moved_canMove ht.1
        rw [hcm] at this; cases this
      | cons b l2' =>
        simp only [List.cons_append, List.cons.injEq] at ht
        by_cases ha : label norm g e = .correct
        · rw [← ht.1, ha]; exact List.mem_cons_self _ _
        · have hb : label norm g e ≠ .moved := by
            intro hb
            have := label_moved_canMove hb
            rw [hcm] at this; cases this
          have hc' : g'.canMove = false := by rw [hoth ha hb]; exact hcm
          exact List.mem_cons_of_mem _ (h2 hc' l2' l3 ht.2)
    · intro l1 l2 l3 ht
      cases l1 with
      | nil =>
        simp only [List.nil_append, List.cons.injEq] at ht
        exact h2 (hmov ht.1) l2 l3 ht.2
      | cons b l1' =>
        simp only [List.cons_append, List.cons.injEq] at ht
        exact h3 l1' l2 l3 ht.2

/-- At most one move onto the exit along a run from a sound state, and none
once the game is inactive. -/
theorem run_wins (norm : String → String) (evs : List Event)
    (hnr : ∀ e ∈ evs, e.isResize = false) :
    ∀ g, Sound g → winCount norm g evs ≤ 1 ∧
      (g.isGameActive = false → winCount norm g evs = 0) := by
  induction evs with
  | nil => intro g _; simp [winCount]
  | cons e es ih =>
    intro g hs
    obtain ⟨g', hstep, hs', -, -, -, -, hact, hwin⟩ :=
      step_spec norm g e hs (hnr e (List.mem_cons_self _ _))
    obtain ⟨ih1, ih2⟩ := ih (fun e1 h1 => hnr e1 (List.mem_cons_of_mem _ h1)) g' hs'
    have hina : g.isGameActive = false → g'.isGameActive = false := by
      intro h
      cases h' : g'.isGameActive
      · rfl
      · rw [hact h'] at h; cases h
    simp only [winCount, hstep, settle]
    cases e with
    | answer raw rnd =>
      simp only [Nat.zero_add]
      exact ⟨ih1, fun h => ih2 (hina h)⟩
    | tick now now1 =>
      simp only [Nat.zero_add]
      exact ⟨ih1, fun h => ih2 (hina h)⟩
    | resize cw ch =>
      simp only [Nat.zero_add]
      exact ⟨ih1, fun h => ih2 (hina h)⟩
    | move dx dy w =>
      by_cases hw : Wins g dx dy
      · have h0 := ih2 (hwin dx dy w rfl hw)
        simp only [if_pos hw, h0]
        refine ⟨le_refl _, ?_⟩
        intro h
        have := hw.1.1
        rw [h] at this; cases this
      · simp only [if_neg hw, Nat.zero_add]
        exact ⟨ih1, fun h => ih2 (hina h)⟩

/-- Handlers never fail along a run from a sound state. -/
theorem run_sound (norm : String → String) (evs : List Event)
    (hnr : ∀ e ∈ evs, e.isResize = false) :
    ∀ g, Sound g → ∃ g1, run norm g evs = .ok g1 ∧ Sound g1 := by
  intro g hs
  obtain ⟨g1, h, hs1, -⟩ := run_lock norm evs hnr g hs
  exact ⟨g1, h, hs1⟩

/-! ## Claims about runs -/

theorem mazeRead_cases (maze : Maze) (y x : Int) :
    mazeRead maze y x = .error .typeError ∨ mazeRead maze y x = .ok (cellAt maze x y) := by
  unfold mazeRead cellAt
  cases jsIndex maze y with
  | none => left; rfl
  | some row => right; rfl

theorem forEach_cases {α : Type} (body : α → Except Fault Unit) (l : List α)
    (h : ∀ a, body a = .ok () ∨ body a = .error .typeError) :
    forEach body l = .ok () ∨ forEach body l = .error .typeError := by
  induction l with
  | nil => left; rfl
  | cons a rest ih =>
    unfold forEach
    rcases h a with h1 | h1
    · rw [h1]; exact ih
    · rw [h1]; right; rfl

/-- The redraw either returns or throws a `TypeError`. -/
theorem update_cases (g : Game) : update g = .ok () ∨ update g = .error .typeError := by
  have hread : ∀ (y x : Int), (match mazeRead g.maze y x with
      | .error e => (.error e : Except Fault Unit)
      | .ok _ => .ok ()) = .ok () ∨ (match mazeRead g.maze y x with
      | .error e => (.error e : Except Fault Unit)
      | .ok _ => .ok ()) = .error .typeError := by
    intro y x
    rcases mazeRead_cases g.maze y x with h | h
    · rw [h]; right; rfl
    · rw [h]; left; rfl
  have hdraw : drawMaze g = .ok () ∨ drawMaze g = .error .typeError := by
    unfold drawMaze
    apply forEach_cases
    intro y
    apply forEach_cases
    intro x
    exact hread y x
  have hhint : unlockMovement g = .ok () ∨ unlockMovement g = .error .typeError := by
    unfold unlockMovement
    apply forEach_cases
    intro dir
    simp only
    split
    · exact hread _ _
    · left; rfl
  unfold update
  split
  · left; rfl
  · rcases hdraw with h | h
    · rw [h]
      simp only
      split
      · exact hhint
      · left; rfl
    · rw [h]; right; rfl

/-- Whatever the dimensions used for the draws, the trap returns or throws a
`TypeError`, and the grid it leaves differs from the old one only at the
cells drawn. -/
theorem trapLoop_frame {mr mc : Nat} (rows cols n : Nat) :
    ∀ (rnd : Nat → Nat) (maze : Maze), IsGrid mr mc maze →
      ∃ maze1, (trapLoop rows cols n rnd maze = .ok maze1 ∨
          trapLoop rows cols n rnd maze = .error (.typeError, maze1)) ∧
        IsGrid mr mc maze1 ∧
        ∀ x y, (x, y) ∉ trapPicks rows cols n rnd → cellAt maze1 x y = cellAt maze x y := by
  induction n with
  | zero =>
    intro rnd maze hg
    exact ⟨maze, Or.inl rfl, hg, fun _ _ _ => rfl⟩
  | succ n ih =>
    intro rnd maze hg
    unfold trapLoop
    simp only
    rcases mazeRead_cases maze (randIndex (rnd 1) rows : Int) (randIndex (rnd 0) cols : Int)
      with hread | hread
    · rw [hread]
      exact ⟨maze, Or.inr rfl, hg, fun _ _ _ => rfl⟩
    · rw [hread]
      simp only
      by_cases ho : cellAt maze (randIndex (rnd 0) cols : Int) (randIndex (rnd 1) rows : Int)
          = some 0
      · have hb := cellAt_inBounds_of_some hg ho
        obtain ⟨m1, hw, hg1, hc1⟩ := mazeWrite_of_grid hg 1 hb.1 hb.2.1 hb.2.2.1 hb.2.2.2
        obtain ⟨m2, hl, hg2, hc2⟩ := ih (fun k => rnd (k + 2)) m1 hg1
        refine ⟨m2, ?_, hg2, ?_⟩
        · simp only [ho, if_true, hw]
          exact hl
        · intro x y hxy
          simp only [trapPicks, List.mem_cons, not_or, Prod.mk.injEq] at hxy
          rw [hc2 x y hxy.2, hc1, if_neg hxy.1]
      · obtain ⟨m2, hl, hg2, hc2⟩ := ih (fun k => rnd (k + 2)) maze hg
        refine ⟨m2, ?_, hg2, ?_⟩
        · simp only [ho, if_false]
          exact hl
        · intro x y hxy
          simp only [trapPicks, List.mem_cons, not_or] at hxy
          exact hc2 x y hxy.2

/-- Whatever the dimensions in force, a handler returns or throws a
`TypeError`, and it leaves the cells under the player and at the exit open
when the event avoids them with its trap. -/
theorem step_keeps_open_always {mr mc : Nat} (norm : String → String) (g : Game) (e : Event)
    (hg : IsGrid mr mc g.maze) (hp : cellAt g.maze g.player.x g.player.y = some 0)
    (hx : cellAt g.maze g.exit.x g.exit.y = some 0) (ha : AvoidsTrap norm g e)
    (hm : e.inModel = true) :
    ∃ g1, (step norm g e = .ok g1 ∨ step norm g e = .error (.typeError, g1)) ∧
      IsGrid mr mc g1.maze ∧ cellAt g1.maze g1.player.x g1.player.y = some 0 ∧
      cellAt g1.maze g1.exit.x g1.exit.y = some 0 := by
  cases e with
  | answer raw rnd =>
    cases g with
    | mk rows cols maze player ex cw score tl gl act cm ltu ps =>
      simp only at hg hp hx
      cases cw with
      | none => exact ⟨_, Or.inr rfl, hg, hp, hx⟩
      | some word =>
        by_cases hc : norm raw = word.english
        · rcases update_cases
            { rows := rows, cols := cols, maze := maze, player := player, exit := ex,
              currentWord := some word, score := score + 10, timeLeft := tl, gameLoop := gl,
              isGameActive := act, canMove := true, lastTimerUpdate := ltu,
              promptShown := false } with hu | hu
          · refine ⟨
            { rows := rows, cols := cols, maze := maze, player := player, exit := ex,
              currentWord := some word, score := score + 10, timeLeft := tl, gameLoop := gl,
              isGameActive := act, canMove := true, lastTimerUpdate := ltu,
              promptShown := false }, Or.inl ?_, hg, hp, hx⟩
            simp only [step, checkAnswer, if_pos hc, hu]
          · refine ⟨
            { rows := rows, cols := cols, maze := maze, player := player, exit := ex,
              currentWord := some word, score := score + 10, timeLeft := tl, gameLoop := gl,
              isGameActive := act, canMove := true, lastTimerUpdate := ltu,
              promptShown := false }, Or.inr ?_, hg, hp, hx⟩
            simp only [step, checkAnswer, if_pos hc, hu]
        · have hav : ∀ p ∈ trapPicks rows cols 3 rnd,
              p ≠ (player.x, player.y) ∧ p ≠ (ex.x, ex.y) := by
            rcases ha with h | h
            · exact absurd h hc
            · exact h
          obtain ⟨m1, hl, hg1, hfr⟩ := trapLoop_frame rows cols 3 rnd maze hg
          have hp1 : cellAt m1 player.x player.y = some 0 := by
            rw [hfr _ _ (fun h => (hav _ h).1 rfl)]; exact hp
          have hx1 : cellAt m1 ex.x ex.y = some 0 := by
            rw [hfr _ _ (fun h => (hav _ h).2 rfl)]; exact hx
          rcases hl with hl | hl
          · refine ⟨
            { rows := rows, cols := cols, maze := m1, player := player, exit := ex,
              currentWord := some word, score := score, timeLeft := tl, gameLoop := gl,
              isGameActive := act, canMove := cm, lastTimerUpdate := ltu,
              promptShown := ps }, Or.inl ?_, hg1, hp1, hx1⟩
            simp only [step, checkAnswer, if_neg hc, triggerTrap, hl]
          · refine ⟨
            { rows := rows, cols := cols, maze := m1, player := player, exit := ex,
              currentWord := some word, score := score, timeLeft := tl, gameLoop := gl,
              isGameActive := act, canMove := cm, lastTimerUpdate := ltu,
              promptShown := ps }, Or.inr ?_, hg1, hp1, hx1⟩
            simp only [step, checkAnswer, if_neg hc, triggerTrap, hl]
  | move dx dy w =>
    have hstep : step norm g (.move dx dy w) = movePlayer dx dy w g := rfl
    rw [hstep]
    unfold movePlayer
    split
    · exact ⟨g, Or.inl rfl, hg, hp, hx⟩
    · simp only
      split
      · rcases mazeRead_cases g.maze (g.player.y + dy) (g.player.x + dx) with hread | hread
        · rw [hread]
          exact ⟨g, Or.inr rfl, hg, hp, hx⟩
        · rw [hread]
          simp only
          split
          · rename_i ho
            rcases update_cases { g with player := ⟨g.player.x + dx, g.player.y + dy⟩ }
              with hu | hu
            · rw [hu]
              simp only
              split
              · exact ⟨_, Or.inl rfl, hg, ho, hx⟩
              · exact ⟨_, Or.inl rfl, hg, ho, hx⟩
            · rw [hu]
              exact ⟨_, Or.inr rfl, hg, ho, hx⟩
          · exact ⟨g, Or.inl rfl, hg, hp, hx⟩
      · exact ⟨g, Or.inl rfl, hg, hp, hx⟩
  | tick now now1 =>
    have hstep : step norm g (.tick now now1) = tick now now1 g := rfl
    rw [hstep]
    unfold tick
    rcases update_cases g with hu | hu
    · rw [hu]
      refine ⟨_, Or.inl rfl, ?_⟩
      unfold updateTimer
      split
      · exact ⟨hg, hp, hx⟩
      · split
        · exact ⟨hg, hp, hx⟩
        · split <;> exact ⟨hg, hp, hx⟩
    · rw [hu]
      exact ⟨g, Or.inr rfl, hg, hp, hx⟩
  | resize cw ch =>
    have hstep : step norm g (.resize cw ch) = resizeCanvas cw ch g := rfl
    have hne : ¬ min (cw / 15) (ch / 10) = 0 := by
      simpa [Event.inModel] using hm
    rw [hstep]
    unfold resizeCanvas
    simp only [if_neg hne]
    split
    · rcases update_cases
        { g with rows := ch / min (cw / 15) (ch / 10), cols := cw / min (cw / 15) (ch / 10) }
        with hu | hu
      · rw [hu]
        exact ⟨_, Or.inl rfl, hg, hp, hx⟩
      · rw [hu]
        exact ⟨_, Or.inr rfl, hg, hp, hx⟩
    · exact ⟨_, Or.inl rfl, hg, hp, hx⟩

theorem run_keeps_open_always {mr mc : Nat} (norm : String → String) (evs : List Event)
    (hm : ∀ e ∈ evs, e.inModel = true) :
    ∀ g, IsGrid mr mc g.maze → cellAt g.maze g.player.x g.player.y = some 0 →
      cellAt g.maze g.exit.x g.exit.y = some 0 → SafeRun norm g evs →
      ∃ g1, run norm g evs = .ok g1 ∧ cellAt g1.maze g1.player.x g1.player.y = some 0 ∧
        cellAt g1.maze g1.exit.x g1.exit.y = some 0 := by
  induction evs with
  | nil => intro g _ hp hx _; exact ⟨g, rfl, hp, hx⟩
  | cons e es ih =>
    intro g hg hp hx hsafe
    obtain ⟨g', hstep, hg', hp', hx'⟩ :=
      step_keeps_open_always norm g e hg hp hx hsafe.1 (hm e (List.mem_cons_self _ _))
    have hset : settle (step norm g e) = g' := by
      rcases hstep with h | h <;> rw [h] <;> rfl
    have hrest : SafeRun norm g' es := by
      have := hsafe.2
      rw [hset] at this
      exact this
    have hrun : run norm g (e :: es) = run norm g' es := by
      rcases hstep with h | h <;> simp only [run, h]
    rw [hrun]
    exact ih (fun e1 h1 => hm e1 (List.mem_cons_of_mem _ h1)) g' hg' hp' hx' hrest

/-- C3 fails as stated: after `startGame` on a grid of three rows and three
columns, one incorrect answer whose trap draws `(0, 0)` turns the cell under
the player into a wall. -/
theorem trap_walls_player_cell :
    ∃ g0 g1, startGame 18 0 (fun _ => 0) ⟨"mao", "cat"⟩ 1 (newGame 3 3) = .ok g0 ∧
      g0.maze = [[0, 0, 0], [1, 1, 0], [0, 0, 0]] ∧
      run (fun s => s) g0 [.answer "dog" (fun _ => 0)] = .ok g1 ∧
      g1.maze = [[1, 0, 0], [1, 1, 0], [0, 0, 0]] ∧
      g1.player = ⟨0, 0⟩ ∧ cellAt g1.maze g1.player.x g1.player.y = some 1 :=
  ⟨_, _, rfl, rfl, rfl, rfl, rfl, rfl⟩

/-- C3, amended: in every state reached from `startGame` (on a grid with at
least one row and one column) through answers, moves and timer ticks in
which no trap draw of an incorrect answer hits the cell of the player or the
exit cell, the maze cells under the player and at the exit are open.  The
same holds when the events include resizes of the window. -/
theorem player_and_exit_stay_open (norm : String → String) (g : Game) (fuel : Nat)
    (now : Int) (rnd : Nat → Nat) (w : Word) (handle : Nat) (hr : 1 ≤ g.rows)
    (hc : 1 ≤ g.cols) (hf : 2 * g.rows * g.cols ≤ fuel) :
    ∃ g0, startGame fuel now rnd w handle g = .ok g0 ∧
      ∀ evs, (∀ e ∈ evs, e.inModel = true) → SafeRun norm g0 evs →
        ∃ g1, run norm g0 evs = .ok g1 ∧
          cellAt g1.maze g1.player.x g1.player.y = some 0 ∧
          cellAt g1.maze g1.exit.x g1.exit.y = some 0 := by
  obtain ⟨g0, hstart, hs, -, -, -, -, hp, hx⟩ :=
    startGame_spec g fuel now rnd w handle hr hc hf
  exact ⟨g0, hstart, fun evs hm hsafe =>
    run_keeps_open_always norm evs hm g0 hs.1 hp hx hsafe⟩

theorem player_and_exit_stay_open_witness :
    (1 ≤ (newGame 3 3).rows ∧ 1 ≤ (newGame 3 3).cols ∧
      2 * (newGame 3 3).rows * (newGame 3 3).cols ≤ 18) ∧
    ∃ g0, startGame 18 0 (fun _ => 0) ⟨"mao", "cat"⟩ 1 (newGame 3 3) = .ok g0 ∧
      ∀ evs, (∀ e ∈ evs, e.inModel = true) → SafeRun (fun s => s) g0 evs →
        ∃ g1, run (fun s => s) g0 evs = .ok g1 ∧
          cellAt g1.maze g1.player.x g1.player.y = some 0 ∧
          cellAt g1.maze g1.exit.x g1.exit.y = some 0 :=
  ⟨by decide, player_and_exit_stay_open (fun s => s) (newGame 3 3) 18 0 (fun _ => 0)
    ⟨"mao", "cat"⟩ 1 (by decide) (by decide) (by decide)⟩

/-- Without a resize of the window the lock discipline holds in every run
that begins with `startGame`: `startGame` leaves `canMove` false; a
successful move sets it to false and only a correct answer turns it from
false to true; `canMove` is true only when the run contains a correct answer
with no successful move after it; and between two successful moves of the
run there is a correct answer. -/
theorem lock_discipline_without_resize (norm : String → String) (g : Game) (fuel : Nat)
    (now : Int) (rnd : Nat → Nat) (w : Word) (handle : Nat) (hr : 1 ≤ g.rows)
    (hc : 1 ≤ g.cols) (hf : 2 * g.rows * g.cols ≤ fuel) :
    ∃ g0, startGame fuel now rnd w handle g = .ok g0 ∧ g0.canMove = false ∧
      ∀ evs, (∀ e ∈ evs, e.isResize = false) → ∃ g1, run norm g0 evs = .ok g1 ∧
        (∀ e, e.isResize = false → ∃ g2, step norm g1 e = .ok g2 ∧
          (label norm g1 e = .moved → g2.canMove = false) ∧
          (label norm g1 e = .correct → g2.canMove = true) ∧
          (g1.canMove = false → g2.canMove = true → label norm g1 e = .correct)) ∧
        (g1.canMove = true →
          ∃ l1 l2, trace norm g0 evs = l1 ++ Label.correct :: l2 ∧ Label.moved ∉ l2) ∧
        (∀ l1 l2 l3, trace norm g0 evs = l1 ++ Label.moved :: (l2 ++ Label.moved :: l3) →
          Label.correct ∈ l2) := by
  obtain ⟨g0, hstart, hs, hcm, -⟩ := startGame_spec g fuel now rnd w handle hr hc hf
  refine ⟨g0, hstart, hcm, ?_⟩
  intro evs hnr
  obtain ⟨g1, hrun, hs1, h1, -, h3⟩ := run_lock norm evs hnr g0 hs
  refine ⟨g1, hrun, ?_, ?_, h3⟩
  · intro e he
    obtain ⟨g2, hstep, -, -, hcor, hmov, hoth, -, -⟩ := step_spec norm g1 e hs1 he
    refine ⟨g2, hstep, hmov, hcor, ?_⟩
    intro hf1 ht2
    by_contra hne
    by_cases hb : label norm g1 e = .moved
    · rw [hmov hb] at ht2; cases ht2
    · rw [hoth hne hb, hf1] at ht2; cases ht2
  · intro ht
    rcases h1 ht with ⟨h0, -, -⟩ | h
    · rw [hcm] at h0; cases h0
    · exact h

/-- Without a resize of the window the score follows the events in every run
that begins with `startGame`: it starts at 0, a correct answer adds exactly
10, a move that lands on the exit adds exactly `floor(timeLeft / 2)`, every
other event leaves it unchanged, and a run contains at most one move onto the
exit. -/
theorem score_changes_without_resize (norm : String → String) (g : Game)
    (fuel : Nat) (now : Int) (rnd : Nat → Nat) (w : Word) (handle : Nat) (hr : 1 ≤ g.rows)
    (hc : 1 ≤ g.cols) (hf : 2 * g.rows * g.cols ≤ fuel) :
    ∃ g0, startGame fuel now rnd w handle g = .ok g0 ∧ g0.score = 0 ∧
      ∀ evs, (∀ e ∈ evs, e.isResize = false) → ∃ g1, run norm g0 evs = .ok g1 ∧
        (∀ e, e.isResize = false → ∃ g2, step norm g1 e = .ok g2 ∧
          g2.score = g1.score + scoreDelta norm g1 e) ∧
        winCount norm g0 evs ≤ 1 := by
  obtain ⟨g0, hstart, hs, -, hsc, -⟩ := startGame_spec g fuel now rnd w handle hr hc hf
  refine ⟨g0, hstart, hsc, ?_⟩
  intro evs hnr
  obtain ⟨g1, hrun, hs1⟩ := run_sound norm evs hnr g0 hs
  refine ⟨g1, hrun, ?_, (run_wins norm evs hnr g0 hs).1⟩
  intro e he
  obtain ⟨g2, hstep, -, hscore, -⟩ := step_spec norm g1 e hs1 he
  exact ⟨g2, hstep, hscore⟩

/-- C4 fails on the code: start a game on the grid of a 600 by 400 px
container (10 rows, 15 columns), answer correctly, and narrow the container
to 540 px, which makes `resizeCanvas` set `rows` to 11 while the maze keeps
its 10 rows.  From then on `update()` throws a `TypeError` in `drawMaze`.
A move to the right passes the guard and writes the new position, the
`update()` call inside `movePlayer` throws before `canMove = false` is
reached, and `canMove` stays true: the next move succeeds as well, with no
answer in between. -/
theorem resize_lets_moves_skip_the_lock :
    ∃ g0 g1 g2 g3, resizeCanvas 600 400 (newGame 0 0) = .ok (newGame 10 15) ∧
      startGame 300 0 (fun _ => 0) ⟨"mao", "cat"⟩ 1 (newGame 10 15) = .ok g0 ∧
      run (fun s => s) g0 [.answer "cat" (fun _ => 0), .resize 540 400] = .ok g1 ∧
      g1.rows = 11 ∧ g1.cols = 15 ∧ g1.maze.length = 10 ∧ g1.player = ⟨0, 0⟩ ∧
      update g1 = .error .typeError ∧
      movePlayer 1 0 ⟨"gou", "dog"⟩ g1 = .error (.typeError, g2) ∧
      g2.player = ⟨1, 0⟩ ∧ g2.canMove = true ∧
      movePlayer 1 0 ⟨"gou", "dog"⟩ g2 = .error (.typeError, g3) ∧
      g3.player = ⟨2, 0⟩ ∧ g3.canMove = true ∧
      run (fun s => s) g0 lockDemo = .ok g3 ∧
      trace (fun s => s) g0 lockDemo = [.correct, .resized, .moved, .moved] :=
  ⟨_, _, _, _, rfl, rfl, rfl, rfl, rfl, rfl, rfl, rfl, rfl, rfl, rfl, rfl, rfl, rfl, rfl,
    rfl⟩

/-- C5 fails on the code: start a game on the grid of a 600 by 400 px
container (10 rows, 15 columns) and walk, one correct answer per move, to
the cell `(14, 8)` above the exit `(14, 9)`; the score is 220.  Narrow the
container to 540 px (`rows` becomes 11, the maze keeps 10 rows) and answer
correctly once more: the score is 230.  The move down passes the guard and
puts the player on the exit, but the `update()` call inside `movePlayer`
throws before `gameWon()` is reached: the score stays 230 and the game
stays active.  Without the resize the same move wins and the score becomes
`230 + floor(180 / 2) = 320`. -/
theorem resize_drops_the_exit_bonus :
    ∃ g0 g1 g2 g3, resizeCanvas 600 400 (newGame 0 0) = .ok (newGame 10 15) ∧
      startGame 300 0 (fun _ => 0) ⟨"mao", "cat"⟩ 1 (newGame 10 15) = .ok g0 ∧
      run (fun s => s) g0 (walkToExit ++ [.resize 540 400, .answer "cat" (fun _ => 0)]) =
        .ok g1 ∧
      g1.player = ⟨14, 8⟩ ∧ g1.exit = ⟨14, 9⟩ ∧ g1.score = 230 ∧ g1.timeLeft = 180 ∧
      Wins g1 0 1 ∧
      movePlayer 0 1 ⟨"mao", "cat"⟩ g1 = .error (.typeError, g2) ∧
      g2.player = g2.exit ∧ g2.score = 230 ∧ g2.isGameActive = true ∧
      run (fun s => s) g0
        (walkToExit ++ [.answer "cat" (fun _ => 0), .move 0 1 ⟨"mao", "cat"⟩]) = .ok g3 ∧
      g3.player = g3.exit ∧ g3.score = 320 ∧ g3.isGameActive = false :=
  ⟨_, _, _, _, rfl, rfl, rfl, rfl, rfl, rfl, rfl, by decide, rfl, rfl, rfl, rfl, rfl, rfl,
    rfl, rfl⟩

end WordMaze
